import Mathlib

/-!
Verification of the node-slicer core (graph model, validator, orderer, converter)
of this repository, shallowly embedded in Lean from
`packages/backend/src/core/node_types.py`, `node_definitions.py`,
`graph_validator.py` and `node_converter.py`.

Python dictionaries are modelled as association lists (or lookup functions),
Python sets as lists with membership, Python numbers as `Int`/`Rat`.
Recursive Python functions that terminate by growth of a visited set are
modelled with an explicit fuel parameter together with a theorem that the
chosen fuel is always sufficient.
-/

namespace NodeSlicer

/-- A Python value as it can appear in a node parameter dictionary
(the JSON-like data accepted at the core boundary). `vBool` is kept separate
from `vInt` but, as in Python, a bool instance also counts as an int instance. -/
inductive PValue where
  | vNone : PValue
  | vBool : Bool → PValue
  | vInt : Int → PValue
  | vFloat : Rat → PValue
  | vStr : String → PValue
deriving DecidableEq

/-- `PortType` of node_types.py (data kinds that flow through connections). -/
inductive PortType where
  | exec : PortType
  | position : PortType
  | number : PortType
  | boolean : PortType
  | str : PortType
  | temperature : PortType
  | any : PortType
deriving DecidableEq

/-- `ParameterType` of node_types.py. -/
inductive ParameterType where
  | number : ParameterType
  | integer : ParameterType
  | boolean : ParameterType
  | str : ParameterType
  | select : ParameterType
  | position : ParameterType
deriving DecidableEq

/-- `NodeCategory` of node_types.py. -/
inductive NodeCategory where
  | control : NodeCategory
  | movement : NodeCategory
  | temperature : NodeCategory
  | hardware : NodeCategory
  | utility : NodeCategory
deriving DecidableEq

/-- `PortDefinition` of node_types.py. -/
structure PortDefinition where
  id : String
  label : String
  port_type : PortType
  required : Bool
  default_value : PValue
deriving DecidableEq

/-- `PortDefinition.is_compatible`: true if either side is the wildcard kind
`any`, else requires equal kinds. -/
def PortDefinition.is_compatible (self other : PortDefinition) : Bool :=
  if self.port_type = PortType.any ∨ other.port_type = PortType.any then true
  else self.port_type = other.port_type

/-- `ParameterDefinition` of node_types.py. The source annotates
`min_value`/`max_value` as `Optional[float]`; every bound actually constructed
in node_definitions.py is an integer literal, and an integer bound is rendered
in error messages by its decimal digits, so bounds are modelled as `Option Int`. -/
structure ParameterDefinition where
  id : String
  label : String
  param_type : ParameterType
  default_value : PValue
  required : Bool
  min_value : Option Int
  max_value : Option Int
  options : Option (List String)
  help_text : Option String
deriving DecidableEq

/-- Numeric view of a Python value, used for bound comparisons.
In Python a bool is an int instance, with True == 1 and False == 0. -/
def PValue.toRat : PValue → Rat
  | PValue.vBool b => if b then 1 else 0
  | PValue.vInt n => (n : Rat)
  | PValue.vFloat q => q
  | _ => 0

/-- Python `isinstance(v, (int, float))` (bools are ints). -/
def PValue.isNumberInst : PValue → Bool
  | PValue.vBool _ => true
  | PValue.vInt _ => true
  | PValue.vFloat _ => true
  | _ => false

/-- Python `isinstance(v, int)` (bools are ints). -/
def PValue.isIntInst : PValue → Bool
  | PValue.vBool _ => true
  | PValue.vInt _ => true
  | _ => false

/-- Python `isinstance(v, bool)`. -/
def PValue.isBoolInst : PValue → Bool
  | PValue.vBool _ => true
  | _ => false

/-- Python `isinstance(v, str)`. -/
def PValue.isStrInst : PValue → Bool
  | PValue.vStr _ => true
  | _ => false

/-- Python `value in options` for a list of strings: equality across types is
false except for strings. -/
def PValue.eqStr (v : PValue) (o : String) : Bool :=
  match v with
  | PValue.vStr s => s == o
  | _ => false

/-- The two bound checks shared by the `NUMBER` and `INTEGER` branches of
`ParameterDefinition.validate`: Python
`if self.min_value is not None and value < self.min_value: ...` followed by the
symmetric `max_value` check. -/
def checkBounds (label : String) (v : Rat) (mn mx : Option Int) : Bool × Option String :=
  match mn with
  | some m =>
    if v < (m : Rat) then (false, some (label ++ " must be >= " ++ toString m))
    else
      match mx with
      | some M =>
        if (M : Rat) < v then (false, some (label ++ " must be <= " ++ toString M))
        else (true, none)
      | none => (true, none)
  | none =>
    match mx with
    | some M =>
      if (M : Rat) < v then (false, some (label ++ " must be <= " ++ toString M))
      else (true, none)
    | none => (true, none)

/-- `ParameterDefinition.validate` of node_types.py: pure check of a candidate
value, returning `(is_valid, error_message)`. A `None` value stands both for a
missing key and for an explicit Python `None`. -/
def ParameterDefinition.validate (self : ParameterDefinition) (value : PValue) :
    Bool × Option String :=
  if value = PValue.vNone then
    if self.required then (false, some (self.label ++ " is required"))
    else (true, none)
  else if self.param_type = ParameterType.number then
    if ¬ value.isNumberInst then
      (false, some (self.label ++ " must be a number"))
    else checkBounds self.label value.toRat self.min_value self.max_value
  else if self.param_type = ParameterType.integer then
    if ¬ value.isIntInst then
      (false, some (self.label ++ " must be an integer"))
    else checkBounds self.label value.toRat self.min_value self.max_value
  else if self.param_type = ParameterType.boolean then
    if ¬ value.isBoolInst then (false, some (self.label ++ " must be a boolean"))
    else (true, none)
  else if self.param_type = ParameterType.str then
    if ¬ value.isStrInst then (false, some (self.label ++ " must be a string"))
    else (true, none)
  else if self.param_type = ParameterType.select then
    match self.options with
    | some (o :: os) =>
      if ¬ (o :: os).any (fun opt => value.eqStr opt) then
        (false, some (self.label ++ " must be one of: " ++ String.intercalate (", ") (o :: os)))
      else (true, none)
    | _ => (true, none)
  else (true, none)

/-- `Node` of node_types.py: an operation instance in a graph. -/
structure Node where
  id : String
  type : String
  position : List (String × Rat)
  parameters : List (String × PValue)
  metadata : List (String × PValue)
deriving DecidableEq

/-- Dictionary lookup on an association list (Python `dict.get`). -/
def alistGet (l : List (String × PValue)) (key : String) : Option PValue :=
  match l.find? (fun p => p.1 == key) with
  | some p => some p.2
  | none => none

/-- `Node.get_parameter` with a default. -/
def Node.get_parameter (self : Node) (param_id : String) (dflt : PValue) : PValue :=
  match alistGet self.parameters param_id with
  | some v => v
  | none => dflt

/-- `Edge` of node_types.py: a directed connection between two node ports. -/
structure Edge where
  id : String
  source : String
  source_port : String
  target : String
  target_port : String
deriving DecidableEq

/-- `NodeGraph` of node_types.py. -/
structure NodeGraph where
  nodes : List Node
  edges : List Edge
  metadata : List (String × PValue)
deriving DecidableEq

/-- `NodeGraph.get_node`: first node with the given id, if any. -/
def NodeGraph.get_node (self : NodeGraph) (node_id : String) : Option Node :=
  self.nodes.find? (fun n => n.id == node_id)

/-- `NodeGraph.get_outgoing_edges` (without the optional port filter). -/
def NodeGraph.get_outgoing_edges (self : NodeGraph) (node_id : String) : List Edge :=
  self.edges.filter (fun e => e.source == node_id)

/-- `NodeGraph.get_incoming_edges` (without the optional port filter). -/
def NodeGraph.get_incoming_edges (self : NodeGraph) (node_id : String) : List Edge :=
  self.edges.filter (fun e => e.target == node_id)

/-- `NodeGraph.get_predecessors`. -/
def NodeGraph.get_predecessors (self : NodeGraph) (node_id : String) : List String :=
  (self.get_incoming_edges node_id).map (fun e => e.source)

/-- `NodeGraph.get_successors`. -/
def NodeGraph.get_successors (self : NodeGraph) (node_id : String) : List String :=
  (self.get_outgoing_edges node_id).map (fun e => e.target)

/-- `ValidationResult` of node_definitions.py. -/
structure ValidationResult where
  is_valid : Bool
  errors : List String
  warnings : List String
deriving DecidableEq

/-- `NodeDefinition` of node_definitions.py: the schema of one node type. -/
structure NodeDefinition where
  id : String
  name : String
  category : NodeCategory
  description : String
  inputs : List PortDefinition
  outputs : List PortDefinition
  parameters : List ParameterDefinition
  color : String
  icon : Option String
deriving DecidableEq

/-- `NodeDefinition.validate`: check every declared parameter against the
supplied values, then every required input port against the set of connected
input-port ids. `is_valid` records whether any error was appended. -/
def NodeDefinition.validate (self : NodeDefinition) (params : List (String × PValue))
    (inputs : List String) : ValidationResult :=
  let paramErrors := self.parameters.foldl
    (fun acc pd =>
      match pd.validate ((alistGet params pd.id).getD PValue.vNone) with
      | (false, some msg) => acc ++ [msg]
      | _ => acc) []
  let allErrors := self.inputs.foldl
    (fun acc ipd =>
      if ipd.required ∧ ¬ inputs.contains ipd.id then
        acc ++ ["Required input '" ++ ipd.label ++ "' is missing"]
      else acc) paramErrors
  ⟨allErrors.isEmpty, allErrors, []⟩

/-- Shorthand for the pervasive exec port named in/out. -/
def execPort (pid lbl : String) (req : Bool) : PortDefinition :=
  ⟨pid, lbl, PortType.exec, req, PValue.vNone⟩

/-- `START_NODE` of node_definitions.py. -/
def START_NODE : NodeDefinition :=
  ⟨"Start", "Start", NodeCategory.control,
    "Entry point for the node graph. Every graph must have exactly one Start node.",
    [], [execPort "out" "Out" false], [], "#4CAF50", some "play_arrow"⟩

/-- `END_NODE` of node_definitions.py. -/
def END_NODE : NodeDefinition :=
  ⟨"End", "End", NodeCategory.control,
    "Exit point for the node graph. Generates finalization G-code.",
    [execPort "in" "In" true], [], [], "#F44336", some "stop"⟩

/-- `HOME_NODE` of node_definitions.py. -/
def HOME_NODE : NodeDefinition :=
  ⟨"Home", "Home Axes", NodeCategory.movement,
    "Home (zero) the printer axes. Generates G28 command.",
    [execPort "in" "In" true], [execPort "out" "Out" false],
    [⟨"axes", "Axes", ParameterType.select, PValue.vStr "XYZ", true, none, none,
      some ["X", "Y", "Z", "XY", "XZ", "YZ", "XYZ"], some "Which axes to home"⟩],
    "#2196F3", some "home"⟩

/-- The x, y, z parameters shared by `LINEAR_MOVE_NODE` and `EXTRUDE_MOVE_NODE`. -/
def coordParam (pid lbl helpTail : String) : ParameterDefinition :=
  ⟨pid, lbl, ParameterType.number, PValue.vFloat 0, false, none, none, none,
    some (helpTail ++ " coordinate (mm)")⟩

/-- `LINEAR_MOVE_NODE` of node_definitions.py. -/
def LINEAR_MOVE_NODE : NodeDefinition :=
  ⟨"LinearMove", "Linear Move", NodeCategory.movement,
    "Move the print head to a specific position without extruding.",
    [execPort "in" "In" true],
    [execPort "out" "Out" false,
     ⟨"position", "Position", PortType.position, false, PValue.vNone⟩],
    [coordParam "x" "X" "X", coordParam "y" "Y" "Y", coordParam "z" "Z" "Z"],
    "#03A9F4", some "arrow_forward"⟩

/-- `EXTRUDE_MOVE_NODE` of node_definitions.py. -/
def EXTRUDE_MOVE_NODE : NodeDefinition :=
  ⟨"ExtrudeMove", "Extrude Move", NodeCategory.movement,
    "Move the print head while extruding material.",
    [execPort "in" "In" true],
    [execPort "out" "Out" false,
     ⟨"position", "Position", PortType.position, false, PValue.vNone⟩],
    [coordParam "x" "X" "X", coordParam "y" "Y" "Y", coordParam "z" "Z" "Z"],
    "#00BCD4", some "print"⟩

/-- `SET_HOTEND_NODE` of node_definitions.py: temperature is an integer
parameter with declared bounds min 0, max 300. -/
def SET_HOTEND_NODE : NodeDefinition :=
  ⟨"SetHotend", "Set Hotend Temp", NodeCategory.temperature,
    "Set the hotend temperature. Can optionally wait for target temperature.",
    [execPort "in" "In" true],
    [execPort "out" "Out" false,
     ⟨"temp", "Temperature", PortType.temperature, false, PValue.vNone⟩],
    [⟨"temperature", "Temperature", ParameterType.integer, PValue.vInt 200, true,
       some 0, some 300, none, some "Target hotend temperature (°C)"⟩,
     ⟨"wait", "Wait for Temperature", ParameterType.boolean, PValue.vBool false, true,
       none, none, none, some "Wait until temperature is reached"⟩],
    "#FF5722", some "local_fire_department"⟩

/-- `WAIT_HOTEND_NODE` of node_definitions.py. -/
def WAIT_HOTEND_NODE : NodeDefinition :=
  ⟨"WaitHotend", "Wait for Hotend", NodeCategory.temperature,
    "Wait for the hotend to reach the specified temperature.",
    [execPort "in" "In" true], [execPort "out" "Out" false],
    [⟨"temperature", "Temperature", ParameterType.integer, PValue.vInt 200, true,
       some 0, some 300, none, some "Target hotend temperature (°C)"⟩],
    "#FF6F00", some "hourglass_empty"⟩

/-- `SET_BED_NODE` of node_definitions.py. -/
def SET_BED_NODE : NodeDefinition :=
  ⟨"SetBed", "Set Bed Temp", NodeCategory.temperature,
    "Set the heated bed temperature. Can optionally wait for target temperature.",
    [execPort "in" "In" true],
    [execPort "out" "Out" false,
     ⟨"temp", "Temperature", PortType.temperature, false, PValue.vNone⟩],
    [⟨"temperature", "Temperature", ParameterType.integer, PValue.vInt 60, true,
       some 0, some 120, none, some "Target bed temperature (°C)"⟩,
     ⟨"wait", "Wait for Temperature", ParameterType.boolean, PValue.vBool false, true,
       none, none, none, some "Wait until temperature is reached"⟩],
    "#FF9800", some "bed"⟩

/-- `WAIT_BED_NODE` of node_definitions.py. -/
def WAIT_BED_NODE : NodeDefinition :=
  ⟨"WaitBed", "Wait for Bed", NodeCategory.temperature,
    "Wait for the heated bed to reach the specified temperature.",
    [execPort "in" "In" true], [execPort "out" "Out" false],
    [⟨"temperature", "Temperature", ParameterType.integer, PValue.vInt 60, true,
       some 0, some 120, none, some "Target bed temperature (°C)"⟩],
    "#FFA726", some "hourglass_empty"⟩

/-- `SET_FAN_NODE` of node_definitions.py. -/
def SET_FAN_NODE : NodeDefinition :=
  ⟨"SetFan", "Set Fan Speed", NodeCategory.hardware,
    "Set the cooling fan speed as a percentage (0-100%).",
    [execPort "in" "In" true], [execPort "out" "Out" false],
    [⟨"speed", "Fan Speed", ParameterType.integer, PValue.vInt 100, true,
       some 0, some 100, none, some "Fan speed percentage (0-100%)"⟩],
    "#00BCD4", some "air"⟩

/-- `COMMENT_NODE` of node_definitions.py. -/
def COMMENT_NODE : NodeDefinition :=
  ⟨"Comment", "Comment", NodeCategory.utility,
    "Add a comment to the G-code output for documentation.",
    [execPort "in" "In" true], [execPort "out" "Out" false],
    [⟨"text", "Comment Text", ParameterType.str, PValue.vStr "", true,
       none, none, none, some "Comment text to add to G-code"⟩],
    "#9E9E9E", some "comment"⟩

/-- `CUSTOM_GCODE_NODE` of node_definitions.py. -/
def CUSTOM_GCODE_NODE : NodeDefinition :=
  ⟨"CustomGCode", "Custom G-Code", NodeCategory.utility,
    "Insert custom G-code commands directly into the output.",
    [execPort "in" "In" true], [execPort "out" "Out" false],
    [⟨"gcode", "G-Code", ParameterType.str, PValue.vStr "", true,
       none, none, none, some "Custom G-code command(s)"⟩],
    "#607D8B", some "code"⟩

/-- `get_node_definition`: lookup in the fixed `NODE_REGISTRY` dictionary. -/
def get_node_definition (node_type : String) : Option NodeDefinition :=
  if node_type = "Start" then some START_NODE
  else if node_type = "End" then some END_NODE
  else if node_type = "Home" then some HOME_NODE
  else if node_type = "LinearMove" then some LINEAR_MOVE_NODE
  else if node_type = "ExtrudeMove" then some EXTRUDE_MOVE_NODE
  else if node_type = "SetHotend" then some SET_HOTEND_NODE
  else if node_type = "WaitHotend" then some WAIT_HOTEND_NODE
  else if node_type = "SetBed" then some SET_BED_NODE
  else if node_type = "WaitBed" then some WAIT_BED_NODE
  else if node_type = "SetFan" then some SET_FAN_NODE
  else if node_type = "Comment" then some COMMENT_NODE
  else if node_type = "CustomGCode" then some CUSTOM_GCODE_NODE
  else none

/-- `ValidationError` of graph_validator.py: one report entry. -/
structure VError where
  severity : String
  message : String
  node_id : Option String
  edge_id : Option String
  details : Option String
deriving DecidableEq

/-- `GraphValidationResult.add_error` produces entries of severity error. -/
def mkError (msg : String) (nid eid det : Option String) : VError :=
  ⟨"error", msg, nid, eid, det⟩

/-- `GraphValidationResult.add_warning` produces entries of severity warning. -/
def mkWarning (msg : String) (nid eid det : Option String) : VError :=
  ⟨"warning", msg, nid, eid, det⟩

/-- `GraphValidationResult` of graph_validator.py. `is_valid` starts true and
is set to false by every `add_error`, so it equals emptiness of `errors`. -/
structure GraphValidationResult where
  is_valid : Bool
  errors : List VError
  warnings : List VError
deriving DecidableEq

/-- The string value of a `PortType` member (it is a str-valued enum). -/
def PortType.value : PortType → String
  | PortType.exec => "exec"
  | PortType.position => "position"
  | PortType.number => "number"
  | PortType.boolean => "boolean"
  | PortType.str => "string"
  | PortType.temperature => "temperature"
  | PortType.any => "any"

/-- `_validate_nodes` of graph_validator.py: empty-graph check, duplicate node
ids, unknown node types, and per-node parameter/required-input validation.
Python renders the set of duplicated ids in unspecified set order; the model
keeps first-occurrence order (`dedup`). Returns (errors, warnings). -/
def validateNodes (g : NodeGraph) : List VError × List VError :=
  if g.nodes.length = 0 then ([mkError "Graph is empty" none none none], [])
  else
    let node_ids := g.nodes.map (fun n => n.id)
    let dupErrors := ((node_ids.filter (fun nid => node_ids.count nid > 1)).dedup).map
      (fun nid => mkError ("Duplicate node ID: " ++ nid) (some nid) none none)
    let perNode := g.nodes.foldl
      (fun acc n =>
        match get_node_definition n.type with
        | none => acc ++ [mkError ("Unknown node type: " ++ n.type) (some n.id) none
            (some ("Node '" ++ n.id ++ "' has unrecognized type '" ++ n.type ++ "'"))]
        | some nd =>
          let connected := (g.edges.filter (fun e => e.target == n.id)).map
            (fun e => e.target_port)
          let validation := nd.validate n.parameters connected
          if validation.is_valid then acc
          else acc ++ validation.errors.map (fun err => mkError err (some n.id) none
            (some ("Parameter validation failed for node '" ++ n.id ++ "'"))))
      []
    (dupErrors ++ perNode, [])

/-- `_validate_edges` of graph_validator.py: no-connections warning, duplicate
edge ids, and existence of each edge's source and target node. -/
def validateEdges (g : NodeGraph) : List VError × List VError :=
  let warns := if g.edges.length = 0 ∧ g.nodes.length > 1 then
      [mkWarning "Graph has nodes but no connections" none none none]
    else []
  let edge_ids := g.edges.map (fun e => e.id)
  let dupErrors := ((edge_ids.filter (fun eid => edge_ids.count eid > 1)).dedup).map
    (fun eid => mkError ("Duplicate edge ID: " ++ eid) none (some eid) none)
  let perEdge := g.edges.foldl
    (fun acc e =>
      match g.get_node e.source with
      | none => acc ++ [mkError ("Edge references non-existent source node: " ++ e.source)
          none (some e.id) none]
      | some _ =>
        match g.get_node e.target with
        | none => acc ++ [mkError ("Edge references non-existent target node: " ++ e.target)
            none (some e.id) none]
        | some _ => acc)
    []
  (dupErrors ++ perEdge, warns)

/-- `_validate_start_node`: exactly one node of type Start is required. -/
def validateStartNode (g : NodeGraph) : List VError × List VError :=
  let start_nodes := g.nodes.filter (fun n => n.type == "Start")
  if start_nodes.length = 0 then
    ([mkError "Graph must have exactly one Start node" none none none], [])
  else if start_nodes.length > 1 then
    ([mkError ("Graph has multiple Start nodes (" ++ toString start_nodes.length ++ ")")
       none none
       (some ("Found Start nodes: " ++
         String.intercalate (", ") (start_nodes.map (fun n => n.id))))], [])
  else ([], [])

/-- `_validate_end_node`: a missing End node is only a warning. -/
def validateEndNode (g : NodeGraph) : List VError × List VError :=
  if (g.nodes.filter (fun n => n.type == "End")).length = 0 then
    ([], [mkWarning "Graph should have at least one End node" none none none])
  else ([], [])

/-- The ids the cycle DFS can ever visit: roots are node ids and every
recursive step moves to an edge target. Used only to size the fuel. -/
def dfsUniv (g : NodeGraph) : List String :=
  g.nodes.map (fun n => n.id) ++ g.edges.map (fun e => e.target)

/-- Fuel for the cycle DFS: the recursion depth is bounded by the number of
distinct visitable ids, because each level marks a fresh id visited. -/
def dfsFuel (g : NodeGraph) : Nat :=
  (dfsUniv g).dedup.length + 1

/-- The `dfs` closure inside `_validate_cycles`: visit `n`, mark it on the
visited set and the recursion stack, and scan its successors in order — an
already-visited successor on the recursion stack closes a cycle, which is
returned as the path suffix from that successor plus the successor again;
otherwise recurse. The mutable visited set threads through the fold; the
recursion stack and path behave per-call exactly as the shared mutable
versions do, since a clean call restores the stack. `none` means the fuel ran
out, which `dfsVisit_fuel` below shows never happens from `findCycle`.
(Python `path.index` on the recursion-stack hit always finds the id, so the
total `indexOf` models it exactly.) -/
def dfsVisit (g : NodeGraph) : Nat → String → List String → List String → List String →
    Option (List String × Option (List String))
  | 0, _, _, _, _ => none
  | fuel+1, n, path, visited, recStack =>
    let path2 := path ++ [n]
    let recStack2 := n :: recStack
    (g.get_successors n).foldl
      (fun acc s =>
        match acc with
        | none => none
        | some (vis, some c) => some (vis, some c)
        | some (vis, none) =>
          if s ∈ vis then
            if s ∈ recStack2 then
              some (vis, some (path2.drop (path2.indexOf s) ++ [s]))
            else some (vis, none)
          else dfsVisit g fuel s path2 vis recStack2)
      (some (n :: visited, none))

/-- The outer loop of `_validate_cycles`: run the DFS from every not-yet
visited node, stopping at the first cycle found. -/
def findCycleAux (g : NodeGraph) (fuel : Nat) :
    List Node → List String → Option (Option (List String))
  | [], _ => some none
  | node :: rest, visited =>
    if node.id ∈ visited then findCycleAux g fuel rest visited
    else
      match dfsVisit g fuel node.id [] visited [] with
      | none => none
      | some (_, some c) => some (some c)
      | some (vis, none) => findCycleAux g fuel rest vis

/-- `_validate_cycles`, cycle-search part: the first cycle found, if any. -/
def findCycle (g : NodeGraph) : Option (Option (List String)) :=
  findCycleAux g (dfsFuel g) g.nodes []

/-- `_validate_cycles` of graph_validator.py: at most one error, carrying the
cycle path rendered as an ordered chain. -/
def validateCycles (g : NodeGraph) : List VError × List VError :=
  match findCycle g with
  | some (some c) =>
    ([mkError "Graph contains a cycle" none none
       (some ("Cycle detected: " ++ String.intercalate (" -> ") c))], [])
  | _ => ([], [])

/-- The BFS inside `_validate_reachability`: pop the queue head, skip it if
already reached, otherwise mark it and enqueue all its successors. The Python
loop runs at most `1 + edges` iterations (every iteration either shortens the
queue or turns all out-edges of a fresh id into seen-source edges), so with
the fuel `g.edges.length + 1` supplied below the fuel-exhaustion branch is
never taken; it returns the set reached so far. -/
def bfsReachable (g : NodeGraph) : Nat → List String → List String → List String
  | _, [], reachable => reachable
  | 0, _ :: _, reachable => reachable
  | fuel+1, id :: rest, reachable =>
    if id ∈ reachable then bfsReachable g fuel rest reachable
    else bfsReachable g fuel (rest ++ g.get_successors id) (id :: reachable)

/-- `_validate_reachability` of graph_validator.py: meaningful only when there
is exactly one Start node; warnings (never errors) for each node id not
reached by the BFS. Python iterates the unreachable ids in unspecified set
order; the model keeps node-list order. -/
def validateReachability (g : NodeGraph) : List VError × List VError :=
  let start_nodes := g.nodes.filter (fun n => n.type == "Start")
  match start_nodes with
  | [start] =>
    let reachable := bfsReachable g (g.edges.length + 1) [start.id] []
    let unreachable := ((g.nodes.map (fun n => n.id)).dedup).filter
      (fun nid => nid ∉ reachable)
    ([], unreachable.map (fun nid =>
      mkWarning "Node is unreachable from Start" (some nid) none
        (some ("Node '" ++ nid ++ "' (" ++
          (match g.get_node nid with
           | some node => node.type
           | none => "unknown") ++ ") cannot be reached"))))
  | _ => ([], [])

/-- `_validate_connections` of graph_validator.py: for each edge with existing
endpoints and known node types, the named ports must exist and be compatible. -/
def validateConnections (g : NodeGraph) : List VError × List VError :=
  (g.edges.foldl
    (fun acc e =>
      match g.get_node e.source, g.get_node e.target with
      | some sn, some tn =>
        match get_node_definition sn.type, get_node_definition tn.type with
        | some sd, some td =>
          match sd.outputs.find? (fun p => p.id == e.source_port) with
          | none => acc ++ [mkError
              ("Source node does not have output port '" ++ e.source_port ++ "'")
              none (some e.id)
              (some ("Node '" ++ sn.id ++ "' (" ++ sn.type ++
                ") does not define output port '" ++ e.source_port ++ "'"))]
          | some sp =>
            match td.inputs.find? (fun p => p.id == e.target_port) with
            | none => acc ++ [mkError
                ("Target node does not have input port '" ++ e.target_port ++ "'")
                none (some e.id)
                (some ("Node '" ++ tn.id ++ "' (" ++ tn.type ++
                  ") does not define input port '" ++ e.target_port ++ "'"))]
            | some tp =>
              if ¬ sp.is_compatible tp then
                acc ++ [mkError "Incompatible port types" none (some e.id)
                  (some ("Cannot connect " ++ sp.port_type.value ++ " output to " ++
                    tp.port_type.value ++ " input"))]
              else acc
        | _, _ => acc
      | _, _ => acc)
    [], [])

/-- `_validate_isolated_nodes` of graph_validator.py: a non-Start/End node with
no incident edges yields a warning. -/
def validateIsolatedNodes (g : NodeGraph) : List VError × List VError :=
  ([], g.nodes.foldl
    (fun acc n =>
      if n.type = "Start" ∨ n.type = "End" then acc
      else if (g.get_incoming_edges n.id).length = 0 ∧
          (g.get_outgoing_edges n.id).length = 0 then
        acc ++ [mkWarning "Node is isolated" (some n.id) none
          (some ("Node '" ++ n.id ++ "' (" ++ n.type ++ ") has no connections"))]
      else acc)
    [])

/-- `GraphValidator.validate`: run the eight checks in order, concatenating
their report entries; validity is absence of errors. -/
def validate (g : NodeGraph) : GraphValidationResult :=
  let r1 := validateNodes g
  let r2 := validateEdges g
  let r3 := validateStartNode g
  let r4 := validateEndNode g
  let r5 := validateCycles g
  let r6 := validateReachability g
  let r7 := validateConnections g
  let r8 := validateIsolatedNodes g
  let errs := r1.1 ++ r2.1 ++ r3.1 ++ r4.1 ++ r5.1 ++ r6.1 ++ r7.1 ++ r8.1
  let warns := r1.2 ++ r2.2 ++ r3.2 ++ r4.2 ++ r5.2 ++ r6.2 ++ r7.2 ++ r8.2
  ⟨errs.isEmpty, errs, warns⟩

/-- Modelled from the spec: the fullcontrol step constructors (`fc.Point`,
`fc.Extruder`, `fc.Hotend`, `fc.Buildplate`, `fc.Fan`, `fc.GcodeComment`,
`fc.ManualGcode`) used by node_converter.py live in the fullcontrol package of
this repository, outside the staged core sources. Per the spec a Step is an
abstract, typed unit of executable intent, not yet rendered to machine text,
so each constructor is a tagged value carrying the fields the converter
passes. -/
inductive Step where
  | point : PValue → PValue → PValue → Step
  | extruder : Bool → Step
  | hotend : PValue → PValue → Step
  | buildplate : PValue → PValue → Step
  | fan : PValue → Step
  | gcodeComment : PValue → Step
  | manualGcode : PValue → Step
deriving DecidableEq

/-- Decidable equality for `Except` results, so concrete runs of the
converter and orderer can be checked by `decide`. -/
instance exceptDecEq {ε α : Type} [DecidableEq ε] [DecidableEq α] :
    DecidableEq (Except ε α) := fun x y =>
  match x, y with
  | Except.ok a, Except.ok b =>
    if h : a = b then Decidable.isTrue (by rw [h])
    else Decidable.isFalse (fun hc => h (Except.ok.inj hc))
  | Except.error a, Except.error b =>
    if h : a = b then Decidable.isTrue (by rw [h])
    else Decidable.isFalse (fun hc => h (Except.error.inj hc))
  | Except.ok _, Except.error _ => Decidable.isFalse (fun hc => Except.noConfusion hc)
  | Except.error _, Except.ok _ => Decidable.isFalse (fun hc => Except.noConfusion hc)

/-- Python `str()` of a parameter value, used by the Home handler's f-string.
Floats are rendered faithfully for integral values (the only float parameter
values the registry produces); other rationals render as reduced fractions,
an approximation never exercised by the claims. -/
def pyStr : PValue → String
  | PValue.vNone => "None"
  | PValue.vBool b => if b then "True" else "False"
  | PValue.vInt n => toString n
  | PValue.vFloat q => if q.den = 1 then toString q.num ++ ".0" else toString q
  | PValue.vStr s => s

/-- The keys of `NodeConverter.node_handlers`. -/
def node_handler_keys : List String :=
  ["Start", "End", "Home", "LinearMove", "ExtrudeMove", "SetHotend",
   "WaitHotend", "SetBed", "WaitBed", "SetFan", "Comment", "CustomGCode"]

/-- `NodeConverter._convert_node` with the twelve per-type handlers inlined:
dispatch on the node type and build the handler's steps from the node's
parameters; an unknown type yields no steps (the `if not handler` branch,
unreachable after `_validate_graph`). -/
def convertNode (n : Node) : List Step :=
  if n.type = "Start" then []
  else if n.type = "End" then [Step.gcodeComment (PValue.vStr "End of print")]
  else if n.type = "Home" then
    [Step.manualGcode (PValue.vStr ("G28 " ++ pyStr (n.get_parameter "axes" (PValue.vStr "XYZ"))))]
  else if n.type = "LinearMove" then
    [Step.point (n.get_parameter "x" PValue.vNone) (n.get_parameter "y" PValue.vNone)
      (n.get_parameter "z" PValue.vNone)]
  else if n.type = "ExtrudeMove" then
    [Step.extruder true,
     Step.point (n.get_parameter "x" PValue.vNone) (n.get_parameter "y" PValue.vNone)
      (n.get_parameter "z" PValue.vNone)]
  else if n.type = "SetHotend" then
    [Step.hotend (n.get_parameter "temperature" (PValue.vInt 200))
      (n.get_parameter "wait" (PValue.vBool false))]
  else if n.type = "WaitHotend" then
    [Step.hotend (n.get_parameter "temperature" (PValue.vInt 200)) (PValue.vBool true)]
  else if n.type = "SetBed" then
    [Step.buildplate (n.get_parameter "temperature" (PValue.vInt 60))
      (n.get_parameter "wait" (PValue.vBool false))]
  else if n.type = "WaitBed" then
    [Step.buildplate (n.get_parameter "temperature" (PValue.vInt 60)) (PValue.vBool true)]
  else if n.type = "SetFan" then
    [Step.fan (n.get_parameter "speed" (PValue.vInt 100))]
  else if n.type = "Comment" then
    [Step.gcodeComment (n.get_parameter "text" (PValue.vStr ""))]
  else if n.type = "CustomGCode" then
    [Step.manualGcode (n.get_parameter "gcode" (PValue.vStr ""))]
  else []

/-- The `dfs` closure inside `NodeConverter._has_cycles`: identical traversal
to `dfsVisit` but returning only whether a cycle was hit. `none` is fuel
exhaustion, shown unreachable from `hasCyclesO`. -/
def dfsVisitB (g : NodeGraph) : Nat → String → List String → List String →
    Option (List String × Bool)
  | 0, _, _, _ => none
  | fuel+1, n, visited, recStack =>
    let recStack2 := n :: recStack
    (g.get_successors n).foldl
      (fun acc s =>
        match acc with
        | none => none
        | some (vis, true) => some (vis, true)
        | some (vis, false) =>
          if s ∈ vis then
            if s ∈ recStack2 then some (vis, true)
            else some (vis, false)
          else dfsVisitB g fuel s vis recStack2)
      (some (n :: visited, false))

/-- The outer loop of `NodeConverter._has_cycles`. -/
def hasCyclesAux (g : NodeGraph) (fuel : Nat) :
    List Node → List String → Option Bool
  | [], _ => some false
  | node :: rest, visited =>
    if node.id ∈ visited then hasCyclesAux g fuel rest visited
    else
      match dfsVisitB g fuel node.id visited [] with
      | none => none
      | some (_, true) => some true
      | some (vis, false) => hasCyclesAux g fuel rest vis

/-- `NodeConverter._has_cycles` with the provably sufficient fuel. -/
def hasCyclesO (g : NodeGraph) : Option Bool :=
  hasCyclesAux g (dfsFuel g) g.nodes []

/-- The BFS of `NodeConverter._topological_sort`: visit each id once at its
first dequeue, append the corresponding node, and enqueue unvisited
successors. As for `bfsReachable`, the loop runs at most `1 + edges`
iterations, so the fuel below never runs out; exhaustion returns the nodes
ordered so far. -/
def bfsSortLoop (g : NodeGraph) : Nat → List String → List String → List Node → List Node
  | _, [], _, result => result
  | 0, _ :: _, _, result => result
  | fuel+1, id :: rest, visited, result =>
    if id ∈ visited then bfsSortLoop g fuel rest visited result
    else
      match g.get_node id with
      | some node =>
        bfsSortLoop g fuel (rest ++ (g.get_successors id).filter (fun s => s ∉ (id :: visited)))
          (id :: visited) (result ++ [node])
      | none => bfsSortLoop g fuel rest (id :: visited) result

/-- `NodeConverter._topological_sort` seeded at the Start node. -/
def topologicalSort (g : NodeGraph) (start : Node) : List Node :=
  bfsSortLoop g (g.edges.length + 1) [start.id] [] []

/-- `NodeConverter.convert`: structural validation (cycles, then unknown
types), Start lookup, BFS order, then concatenation of each visited node's
steps. A `GraphValidationError` raise is an `Except.error` with the raised
message. -/
def convert (g : NodeGraph) : Except String (List Step) :=
  match hasCyclesO g with
  | none => Except.error "recursion fuel exhausted"
  | some true => Except.error "Graph contains cycles"
  | some false =>
    match g.nodes.find? (fun n => ¬ (node_handler_keys.contains n.type)) with
    | some n => Except.error ("Unknown node type: " ++ n.type)
    | none =>
      match g.nodes.find? (fun n => n.type == "Start") with
      | none => Except.error "No Start node found in graph"
      | some start =>
        Except.ok ((topologicalSort g start).foldl (fun acc n => acc ++ convertNode n) [])

/-- The two ways `GraphExecutor.get_execution_order` can fail: a raised
`ValueError`, or an unguarded dictionary access (`KeyError`) when a successor
id is missing from the in-degree table. -/
inductive ExecError where
  | valueError : String → ExecError
  | keyError : String → ExecError
deriving DecidableEq

/-- The in-degree dictionary of `get_execution_order`: zero for every node id,
then one increment per edge whose target is a known key. -/
def initInDeg (g : NodeGraph) : String → Option Int :=
  g.edges.foldl
    (fun m e =>
      match m e.target with
      | some k => fun x => if x = e.target then some (k + 1) else m x
      | none => m)
    (fun i => if g.nodes.any (fun n => n.id == i) then some 0 else none)

/-- `queue.sort(key=lambda n: 0 if n.type == "Start" else 1)`: Python list
sort is stable, so sorting by this two-valued key is exactly the stable
partition putting Start-typed nodes first. -/
def sortStartFirst (queue : List Node) : List Node :=
  queue.filter (fun n => n.type == "Start") ++ queue.filter (fun n => ¬ n.type = "Start")

/-- The inner successor loop of one `get_execution_order` iteration: decrement
each successor's in-degree (a missing key raises `KeyError`), and when a
decrement reaches exactly zero enqueue the successor's node if it exists. -/
def kahnStep (g : NodeGraph) (succs : List String) (queue : List Node)
    (inDeg : String → Option Int) : Except ExecError (List Node × (String → Option Int)) :=
  match succs with
  | [] => Except.ok (queue, inDeg)
  | s :: rest =>
    match inDeg s with
    | none => Except.error (ExecError.keyError s)
    | some k =>
      let inDeg2 : String → Option Int := fun x => if x = s then some (k - 1) else inDeg x
      if k - 1 = 0 then
        match g.get_node s with
        | some nd => kahnStep g rest (queue ++ [nd]) inDeg2
        | none => kahnStep g rest queue inDeg2
      else kahnStep g rest queue inDeg2

/-- The while loop of `get_execution_order`: sort the queue Start-first, pop
the head, append it to the result, process its successors, repeat; when the
queue empties, a result shorter than the node list means a cycle. The Python
loop runs at most one iteration per node (each node enters the queue at most
once), so the fuel `g.nodes.length + 1` supplied by `get_execution_order`
never runs out on the runs the theorems below describe. -/
def kahnLoop (g : NodeGraph) (fuel : Nat) (queue : List Node)
    (inDeg : String → Option Int) (result : List Node) : Except ExecError (List Node) :=
  match sortStartFirst queue with
  | [] =>
    if result.length ≠ g.nodes.length then
      Except.error (ExecError.valueError
        "Graph contains cycles - cannot determine execution order")
    else Except.ok result
  | node :: rest =>
    match fuel with
    | 0 => Except.error (ExecError.valueError "loop fuel exhausted")
    | fuel2+1 =>
      match kahnStep g (g.get_successors node.id) rest inDeg with
      | Except.error err => Except.error err
      | Except.ok (queue2, inDeg2) => kahnLoop g fuel2 queue2 inDeg2 (result ++ [node])

/-- `GraphExecutor.get_execution_order`: Kahn's algorithm with the Start-first
tie-break. -/
def get_execution_order (g : NodeGraph) : Except ExecError (List Node) :=
  let inDeg := initInDeg g
  if (g.nodes.filter (fun n => n.type == "Start")).length ≠ 1 then
    Except.error (ExecError.valueError "Graph must have exactly one Start node")
  else
    kahnLoop g (g.nodes.length + 1) (g.nodes.filter (fun n => inDeg n.id == some 0))
      inDeg []

/-- The successor relation a graph's edges induce on ids: one directed edge
from `u` to `v`. -/
def edgeRel (g : NodeGraph) (u v : String) : Prop :=
  ∃ e ∈ g.edges, e.source = u ∧ e.target = v

/-- Substring containment, the "message contains ..." of the spec. -/
def strContains (s sub : String) : Prop :=
  sub.data <:+: s.data

instance (s sub : String) : Decidable (strContains s sub) :=
  List.decidableInfix sub.data s.data

/-- A node instance with default position and metadata, as the scenario graphs
of the spec construct them. -/
def mkNode (i t : String) (ps : List (String × PValue)) : Node :=
  ⟨i, t, [], ps, []⟩

/-- Scenario A of the spec: Start "s", End "e", one edge s.out → e.in. -/
def graphA : NodeGraph :=
  ⟨[mkNode "s" "Start" [], mkNode "e" "End" []], [⟨"e1", "s", "out", "e", "in"⟩], []⟩

/-- Scenario D of the spec: Start "s" and a SetHotend "t" with temperature 500
(declared max 300) and wait false. -/
def graphD : NodeGraph :=
  ⟨[mkNode "s" "Start" [],
    mkNode "t" "SetHotend" [("temperature", PValue.vInt 500), ("wait", PValue.vBool false)]],
   [], []⟩

/-- Scenario C of the spec: Start "s", Home "h1", Comment "h2", with the edge
chain s → h1 → h2 → h1 closing a cycle. -/
def graphCyc : NodeGraph :=
  ⟨[mkNode "s" "Start" [], mkNode "h1" "Home" [("axes", PValue.vStr "XYZ")],
    mkNode "h2" "Comment" [("text", PValue.vStr "t")]],
   [⟨"e1", "s", "out", "h1", "in"⟩, ⟨"e2", "h1", "out", "h2", "in"⟩,
    ⟨"e3", "h2", "out", "h1", "in"⟩], []⟩

/-- One Start, one End, and an edge whose target id "ghost" names no node. -/
def graphKey : NodeGraph :=
  ⟨[mkNode "s" "Start" [], mkNode "e" "End" []], [⟨"x1", "s", "out", "ghost", "in"⟩], []⟩

/-- Two Start nodes plus an edge-free Comment node. -/
def graphTwoStarts : NodeGraph :=
  ⟨[mkNode "s1" "Start" [], mkNode "s2" "Start" [],
    mkNode "n" "Comment" [("text", PValue.vStr "")]], [], []⟩

/-- One Start node and a two-edge cycle between ids "g1" and "g2" that name no
nodes at all. -/
def graphGhostCycle : NodeGraph :=
  ⟨[mkNode "s" "Start" []],
   [⟨"c1", "g1", "out", "g2", "in"⟩, ⟨"c2", "g2", "out", "g1", "in"⟩], []⟩

/-- A Start and a Comment node "n" whose cycle runs through the dangling id
"g": edges n → g and g → n. -/
def graphNodeGhostCycle : NodeGraph :=
  ⟨[mkNode "s" "Start" [], mkNode "n" "Comment" [("text", PValue.vStr "")]],
   [⟨"e1", "n", "out", "g", "in"⟩, ⟨"e2", "g", "out", "n", "in"⟩], []⟩

/-- Every edge of `graphKey` runs from "s" to "ghost". -/
lemma graphKey_edge (u v : String) (h : edgeRel graphKey u v) : u = "s" ∧ v = "ghost" := by
  obtain ⟨e, he, hs, ht⟩ := h
  have : e = ⟨"x1", "s", "out", "ghost", "in"⟩ := by
    simpa [graphKey] using he
  subst this
  exact ⟨hs.symm, ht.symm⟩

/-- `graphKey` has no directed cycle. -/
lemma graphKey_acyclic (x : String) : ¬ Relation.TransGen (edgeRel graphKey) x x := by
  intro hx
  obtain ⟨b, hab, hrest⟩ := Relation.TransGen.head'_iff.mp hx
  obtain ⟨hxs, hbg⟩ := graphKey_edge x b hab
  rcases Relation.ReflTransGen.cases_head hrest with heq | ⟨c, hbc, _⟩
  · rw [hbg, hxs] at heq
    exact absurd heq (by decide)
  · obtain ⟨hbs, _⟩ := graphKey_edge b c hbc
    rw [hbg] at hbs
    exact absurd hbs (by decide)

/-- A string contains its own right-hand append part. -/
lemma strContains_append_left (a b : String) : strContains (a ++ b) b :=
  ⟨a.data, [], by simp [String.data_append]⟩

/-- The only edge of `graphA` runs from "s" to "e". -/
lemma graphA_edge (u v : String) (h : edgeRel graphA u v) : u = "s" ∧ v = "e" := by
  obtain ⟨e, he, hs, ht⟩ := h
  have heq : e = (⟨"e1", "s", "out", "e", "in"⟩ : Edge) := by
    simpa [graphA] using he
  subst heq
  exact ⟨hs.symm, ht.symm⟩

/-- Scenario A's graph has no directed cycle. -/
lemma graphA_acyclic (x : String) : ¬ Relation.TransGen (edgeRel graphA) x x := by
  intro hx
  obtain ⟨b, hab, hrest⟩ := Relation.TransGen.head'_iff.mp hx
  obtain ⟨hxs, hbe⟩ := graphA_edge x b hab
  rcases Relation.ReflTransGen.cases_head hrest with heq | ⟨c, hbc, _⟩
  · rw [hbe, hxs] at heq
    exact absurd heq (by decide)
  · obtain ⟨hbs, _⟩ := graphA_edge b c hbc
    rw [hbe] at hbs
    exact absurd hbs (by decide)

/-- The temperature parameter of `SET_HOTEND_NODE`, used to instantiate the
bound-message theorem. -/
def hotendTempParam : ParameterDefinition :=
  ⟨"temperature", "Temperature", ParameterType.integer, PValue.vInt 200, true,
    some 0, some 300, none, some "Target hotend temperature (°C)"⟩

/-- The edges of `graphNodeGhostCycle` only link "n" and "g". -/
lemma graphNodeGhostCycle_edge (u v : String) (h : edgeRel graphNodeGhostCycle u v) :
    (u = "n" ∧ v = "g") ∨ (u = "g" ∧ v = "n") := by
  obtain ⟨e, he, hs, ht⟩ := h
  have : e = (⟨"e1", "n", "out", "g", "in"⟩ : Edge) ∨
      e = (⟨"e2", "g", "out", "n", "in"⟩ : Edge) := by
    simpa [graphNodeGhostCycle] using he
  rcases this with rfl | rfl
  · exact Or.inl ⟨hs.symm, ht.symm⟩
  · exact Or.inr ⟨hs.symm, ht.symm⟩

/-- Membership in `get_successors` is exactly the edge relation. -/
lemma mem_successors_iff (g : NodeGraph) (n y : String) :
    y ∈ g.get_successors n ↔ edgeRel g n y := by
  simp only [NodeGraph.get_successors, NodeGraph.get_outgoing_edges, List.mem_map,
    List.mem_filter, edgeRel, beq_iff_eq]
  constructor
  · rintro ⟨e, ⟨he, hs⟩, ht⟩
    exact ⟨e, he, hs, ht⟩
  · rintro ⟨e, he, hs, ht⟩
    exact ⟨e, ⟨he, hs⟩, ht⟩

/-- A fold whose step fixes `x` returns `x`. -/
lemma foldl_fixed_point {α β : Type} (f : α → β → α) (x : α) (h : ∀ b, f x b = x) :
    ∀ ss : List β, ss.foldl f x = x := by
  intro ss
  induction ss with
  | nil => rfl
  | cons s rest ih => rw [List.foldl_cons, h, ih]

/-- The per-successor step of `dfsVisit`, `dfsVisitB` and their relatives
sends `none` to `none`, so a fold from `none` stays `none`; and a recorded
cycle is carried through unchanged. These two facts are instances of
`foldl_fixed_point` applied at each use site. -/
lemma length_filter_mono_pred (l : List String) (p q : String → Bool)
    (h : ∀ x ∈ l, q x = true → p x = true) :
    (l.filter q).length ≤ (l.filter p).length := by
  induction l with
  | nil => simp
  | cons a rest ih =>
    have ih2 := ih (fun x hx => h x (List.mem_cons_of_mem _ hx))
    cases hq : q a
    · cases hp : p a <;> simp [List.filter_cons, hq, hp] <;> omega
    · have hp := h a (List.mem_cons_self a rest) hq
      simp [List.filter_cons, hq, hp]
      omega

/-- Removing a fresh member of a duplicate-free list from the not-yet-visited
filter shrinks it by exactly one. -/
lemma length_filter_cons_of_nodup (l : List String) (hl : l.Nodup) (n : String)
    (hn : n ∈ l) (vis : List String) (hnv : n ∉ vis) :
    (l.filter (fun x => x ∉ (n :: vis))).length + 1 =
      (l.filter (fun x => x ∉ vis)).length := by
  induction l with
  | nil => simp at hn
  | cons a rest ih =>
    rcases List.mem_cons.mp hn with rfl | hmem
    · have hnotin : n ∉ rest := (List.nodup_cons.mp hl).1
      have e1 : (decide (n ∉ n :: vis)) = false := by simp
      have e2 : (decide (n ∉ vis)) = true := by simp [hnv]
      have hsame : rest.filter (fun x => x ∉ (n :: vis)) =
          rest.filter (fun x => x ∉ vis) := by
        apply List.filter_congr
        intro x hx
        have hxa : ¬ (x = n) := fun hxa => hnotin (hxa ▸ hx)
        simp [List.mem_cons, hxa]
      simp only [List.filter_cons, e1, e2, if_true, if_false, Bool.false_eq_true,
        List.length_cons, hsame]
    · have hrest := ih (List.nodup_cons.mp hl).2 hmem
      by_cases ha : a ∈ vis
      · have e1 : (decide (a ∉ n :: vis)) = false := by simp [ha]
        have e2 : (decide (a ∉ vis)) = false := by simp [ha]
        simp only [List.filter_cons, e1, e2, if_true, if_false, Bool.false_eq_true]
        exact hrest
      · have hna : ¬ (a = n) := by
          rintro rfl
          exact (List.nodup_cons.mp hl).1 hmem
        have e1 : (decide (a ∉ n :: vis)) = true := by simp [ha, hna]
        have e2 : (decide (a ∉ vis)) = true := by simp [ha]
        simp only [List.filter_cons, e1, e2, if_true, if_false, List.length_cons]
        omega

/-- State lemma for the cycle DFS: a completed call extends the visited set,
contains its root, and only ever adds the root or edge targets. -/
lemma dfsVisit_state (g : NodeGraph) :
    ∀ (fuel : Nat) (n : String) (path vis rs : List String)
      (res : List String × Option (List String)),
      dfsVisit g fuel n path vis rs = some res →
      vis ⊆ res.1 ∧ n ∈ res.1 ∧
        ∀ x ∈ res.1, x ∈ vis ∨ x = n ∨ x ∈ g.edges.map (fun e => e.target) := by
  intro fuel
  induction fuel with
  | zero => intro n path vis rs res h; exact absurd h (by simp [dfsVisit])
  | succ f ih =>
    intro n path vis rs res h
    rw [dfsVisit] at h
    -- generalize over the successor list and accumulator
    have haux : ∀ (ss : List String), (∀ s ∈ ss, s ∈ g.edges.map (fun e => e.target)) →
        ∀ (acc : Option (List String × Option (List String))),
        (∀ ap, acc = some ap → vis ⊆ ap.1 ∧ n ∈ ap.1 ∧
          ∀ x ∈ ap.1, x ∈ vis ∨ x = n ∨ x ∈ g.edges.map (fun e => e.target)) →
        ss.foldl (fun acc s =>
          match acc with
          | none => none
          | some (vis2, some c) => some (vis2, some c)
          | some (vis2, none) =>
            if s ∈ vis2 then
              if s ∈ n :: rs then
                some (vis2, some ((path ++ [n]).drop ((path ++ [n]).indexOf s) ++ [s]))
              else some (vis2, none)
            else dfsVisit g f s (path ++ [n]) vis2 (n :: rs)) acc = some res →
        vis ⊆ res.1 ∧ n ∈ res.1 ∧
          ∀ x ∈ res.1, x ∈ vis ∨ x = n ∨ x ∈ g.edges.map (fun e => e.target) := by
      intro ss
      induction ss with
      | nil =>
        intro _ acc hacc hfold
        exact hacc res hfold
      | cons s rest ihs =>
        intro hss acc hacc hfold
        rw [List.foldl_cons] at hfold
        match acc with
        | none =>
          rw [foldl_fixed_point _ none (fun _ => rfl)] at hfold
          exact absurd hfold (by simp)
        | some (v, some c) =>
          exact ihs (fun x hx => hss x (List.mem_cons_of_mem _ hx)) (some (v, some c))
            hacc hfold
        | some (v, none) =>
          have hv := hacc (v, none) rfl
          by_cases hsv : s ∈ v
          · by_cases hsr : s ∈ n :: rs
            · simp only [hsv, hsr, if_true, if_false] at hfold
              refine ihs (fun x hx => hss x (List.mem_cons_of_mem _ hx)) _ ?_ hfold
              rintro ap hap
              injection hap with hap
              subst hap
              exact hv
            · simp only [hsv, hsr, if_true, if_false] at hfold
              refine ihs (fun x hx => hss x (List.mem_cons_of_mem _ hx)) _ ?_ hfold
              rintro ap hap
              injection hap with hap
              subst hap
              exact hv
          · simp only [hsv, if_false] at hfold
            match hchild : dfsVisit g f s (path ++ [n]) v (n :: rs) with
            | none =>
              rw [hchild, foldl_fixed_point _ none (fun _ => rfl)] at hfold
              exact absurd hfold (by simp)
            | some child =>
              obtain ⟨hc1, hc2, hc3⟩ := ih s (path ++ [n]) v (n :: rs) child hchild
              rw [hchild] at hfold
              have hchild_inv : ∀ ap, (some child : Option (List String × Option (List String))) = some ap →
                  vis ⊆ ap.1 ∧ n ∈ ap.1 ∧
                    ∀ x ∈ ap.1, x ∈ vis ∨ x = n ∨ x ∈ g.edges.map (fun e => e.target) := by
                rintro ap hap
                injection hap with hap
                subst hap
                refine ⟨fun x hx => hc1 (hv.1 hx), hc1 hv.2.1, ?_⟩
                intro x hx
                rcases hc3 x hx with hxv | rfl | hxt
                · exact hv.2.2 x hxv
                · exact Or.inr (Or.inr (hss x (List.mem_cons_self _ _)))
                · exact Or.inr (Or.inr hxt)
              rcases child with ⟨vc, copt⟩
              cases copt with
              | none =>
                exact ihs (fun x hx => hss x (List.mem_cons_of_mem _ hx)) _ hchild_inv hfold
              | some c =>
                exact ihs (fun x hx => hss x (List.mem_cons_of_mem _ hx)) _ hchild_inv hfold
    refine haux (g.get_successors n) ?_ (some (n :: vis, none)) ?_ h
    · intro s hs
      rw [mem_successors_iff] at hs
      obtain ⟨e, he, _, ht⟩ := hs
      exact List.mem_map.mpr ⟨e, he, ht⟩
    · rintro ap hap
      injection hap with hap
      subst hap
      refine ⟨fun x hx => List.mem_cons_of_mem _ hx, List.mem_cons_self _ _, ?_⟩
      intro x hx
      rcases List.mem_cons.mp hx with rfl | hxv
      · exact Or.inr (Or.inl rfl)
      · exact Or.inl hxv

/-- Fuel sufficiency for the cycle DFS: when the fuel is at least the number
of not-yet-visited ids of the finite universe the traversal can reach, the
fuel never runs out. -/
lemma dfsVisit_fuel (g : NodeGraph) :
    ∀ (fuel : Nat) (n : String) (path vis rs : List String),
      n ∈ dfsUniv g → n ∉ vis →
      ((dfsUniv g).dedup.filter (fun x => x ∉ vis)).length ≤ fuel →
      (dfsVisit g fuel n path vis rs).isSome := by
  intro fuel
  induction fuel with
  | zero =>
    intro n path vis rs hn hnv hcnt
    exfalso
    have hmem : n ∈ (dfsUniv g).dedup.filter (fun x => x ∉ vis) := by
      rw [List.mem_filter]
      exact ⟨List.mem_dedup.mpr hn, by simpa using hnv⟩
    have hpos : 0 < ((dfsUniv g).dedup.filter (fun x => x ∉ vis)).length :=
      List.length_pos.mpr (List.ne_nil_of_mem hmem)
    omega
  | succ f ih =>
    intro n path vis rs hn hnv hcnt
    rw [dfsVisit]
    have hstart : ((dfsUniv g).dedup.filter (fun x => x ∉ (n :: vis))).length ≤ f := by
      have := length_filter_cons_of_nodup (dfsUniv g).dedup (List.nodup_dedup _)
        n (List.mem_dedup.mpr hn) vis hnv
      omega
    have haux : ∀ (ss : List String), (∀ s ∈ ss, s ∈ dfsUniv g) →
        ∀ (acc : Option (List String × Option (List String))),
        (∃ ap, acc = some ap ∧
          ((dfsUniv g).dedup.filter (fun x => x ∉ ap.1)).length ≤ f) →
        (ss.foldl (fun acc s =>
          match acc with
          | none => none
          | some (vis2, some c) => some (vis2, some c)
          | some (vis2, none) =>
            if s ∈ vis2 then
              if s ∈ n :: rs then
                some (vis2, some ((path ++ [n]).drop ((path ++ [n]).indexOf s) ++ [s]))
              else some (vis2, none)
            else dfsVisit g f s (path ++ [n]) vis2 (n :: rs)) acc).isSome := by
      intro ss
      induction ss with
      | nil =>
        rintro _ acc ⟨ap, rfl, _⟩
        simp
      | cons s rest ihs =>
        rintro hss acc ⟨⟨v, copt⟩, rfl, hcv⟩
        rw [List.foldl_cons]
        cases copt with
        | some c =>
          exact ihs (fun x hx => hss x (List.mem_cons_of_mem _ hx)) _ ⟨(v, some c), rfl, hcv⟩
        | none =>
          by_cases hsv : s ∈ v
          · by_cases hsr : s ∈ n :: rs
            · simp only [hsv, hsr, if_true, if_false]
              exact ihs (fun x hx => hss x (List.mem_cons_of_mem _ hx)) _ ⟨_, rfl, hcv⟩
            · simp only [hsv, hsr, if_true, if_false]
              exact ihs (fun x hx => hss x (List.mem_cons_of_mem _ hx)) _ ⟨_, rfl, hcv⟩
          · simp only [hsv, if_false]
            have hs_univ : s ∈ dfsUniv g := hss s (List.mem_cons_self _ _)
            have hchild := ih s (path ++ [n]) v (n :: rs) hs_univ hsv hcv
            match hc : dfsVisit g f s (path ++ [n]) v (n :: rs) with
            | none => rw [hc] at hchild; exact absurd hchild (by simp)
            | some childp =>
              obtain ⟨hmono, _, _⟩ := dfsVisit_state g f s (path ++ [n]) v (n :: rs)
                childp hc
              have hcnt2 : ((dfsUniv g).dedup.filter (fun x => x ∉ childp.1)).length ≤ f := by
                refine le_trans ?_ hcv
                apply length_filter_mono_pred
                intro x _ hx
                simp only [decide_eq_true_eq] at hx ⊢
                exact fun hxv => hx (hmono hxv)
              rcases childp with ⟨vc, cc⟩
              exact ihs (fun x hx => hss x (List.mem_cons_of_mem _ hx)) _ ⟨(vc, cc), rfl, hcnt2⟩
    refine haux (g.get_successors n) ?_ (some (n :: vis, none)) ⟨(n :: vis, none), rfl, hstart⟩
    intro s hs
    rw [mem_successors_iff] at hs
    obtain ⟨e, he, _, ht⟩ := hs
    rw [dfsUniv]
    exact List.mem_append.mpr (Or.inr (List.mem_map.mpr ⟨e, he, ht⟩))

/-- The outer cycle loop never runs out of fuel: with `dfsFuel`, every root
call completes. -/
lemma findCycleAux_isSome (g : NodeGraph) :
    ∀ (ns : List Node) (visited : List String),
      (∀ x ∈ ns, x.id ∈ dfsUniv g) →
      (findCycleAux g (dfsFuel g) ns visited).isSome := by
  intro ns
  induction ns with
  | nil => intro visited _; simp [findCycleAux]
  | cons node rest ihs =>
    intro visited hns
    rw [findCycleAux]
    by_cases hv : node.id ∈ visited
    · simp only [hv, if_true]
      exact ihs visited (fun x hx => hns x (List.mem_cons_of_mem _ hx))
    · simp only [hv, if_false]
      have hroot := dfsVisit_fuel g (dfsFuel g) node.id [] visited []
        (hns node (List.mem_cons_self _ _)) hv
        (by
          have h1 := List.length_filter_le (fun x => decide (x ∉ visited))
            (dfsUniv g).dedup
          rw [dfsFuel]
          omega)
      match hc : dfsVisit g (dfsFuel g) node.id [] visited [] with
      | none => rw [hc] at hroot; exact absurd hroot (by simp)
      | some (vis2, some c) => simp
      | some (vis2, none) =>
        exact ihs vis2 (fun x hx => hns x (List.mem_cons_of_mem _ hx))

/-- `findCycle` always completes: the model's fuel is provably sufficient. -/
lemma findCycle_isSome (g : NodeGraph) : (findCycle g).isSome := by
  rw [findCycle]
  refine findCycleAux_isSome g g.nodes [] ?_
  intro x hx
  rw [dfsUniv]
  exact List.mem_append.mpr (Or.inl (List.mem_map.mpr ⟨x, hx, rfl⟩))

/-- The converter's boolean cycle DFS computes exactly whether the validator's
path-returning DFS finds a cycle; the path argument is irrelevant to the
boolean view. -/
lemma dfsVisitB_eq (g : NodeGraph) :
    ∀ (fuel : Nat) (n : String) (path vis rs : List String),
      dfsVisitB g fuel n vis rs =
        Option.map (fun p => (p.1, p.2.isSome)) (dfsVisit g fuel n path vis rs) := by
  intro fuel
  induction fuel with
  | zero => intro n path vis rs; rfl
  | succ f ih =>
    intro n path vis rs
    rw [dfsVisit, dfsVisitB]
    have haux : ∀ (ss : List String) (accV : Option (List String × Option (List String))),
        ss.foldl (fun acc s =>
          match acc with
          | none => none
          | some (vis2, true) => some (vis2, true)
          | some (vis2, false) =>
            if s ∈ vis2 then
              if s ∈ n :: rs then some (vis2, true)
              else some (vis2, false)
            else dfsVisitB g f s vis2 (n :: rs))
          (Option.map (fun p => (p.1, p.2.isSome)) accV) =
        Option.map (fun p => (p.1, p.2.isSome))
          (ss.foldl (fun acc s =>
            match acc with
            | none => none
            | some (vis2, some c) => some (vis2, some c)
            | some (vis2, none) =>
              if s ∈ vis2 then
                if s ∈ n :: rs then
                  some (vis2, some ((path ++ [n]).drop ((path ++ [n]).indexOf s) ++ [s]))
                else some (vis2, none)
              else dfsVisit g f s (path ++ [n]) vis2 (n :: rs)) accV) := by
      intro ss
      induction ss with
      | nil => intro accV; rfl
      | cons s rest ihs =>
        intro accV
        rw [List.foldl_cons, List.foldl_cons]
        match accV with
        | none => exact ihs none
        | some (v, some c) =>
          simp only [Option.map_some', Option.isSome_some]
          exact ihs (some (v, some c))
        | some (v, none) =>
          simp only [Option.map_some', Option.isSome_none]
          by_cases hsv : s ∈ v
          · by_cases hsr : s ∈ n :: rs
            · simp only [hsv, hsr, if_true, if_false]
              have := ihs (some (v, some ((path ++ [n]).drop ((path ++ [n]).indexOf s) ++ [s])))
              simpa using this
            · simp only [hsv, hsr, if_true, if_false]
              have := ihs (some (v, none))
              simpa using this
          · simp only [hsv, if_false]
            rw [ih s (path ++ [n]) v (n :: rs)]
            exact ihs _
    exact haux (g.get_successors n) (some (n :: vis, none))

/-- Outer-loop version of the equivalence. -/
lemma hasCyclesAux_eq (g : NodeGraph) (fuel : Nat) :
    ∀ (ns : List Node) (visited : List String),
      hasCyclesAux g fuel ns visited =
        Option.map Option.isSome (findCycleAux g fuel ns visited) := by
  intro ns
  induction ns with
  | nil => intro visited; rfl
  | cons node rest ihs =>
    intro visited
    rw [hasCyclesAux, findCycleAux]
    by_cases hv : node.id ∈ visited
    · simp only [hv, if_true]
      exact ihs visited
    · simp only [hv, if_false]
      rw [dfsVisitB_eq g fuel node.id [] visited []]
      match dfsVisit g fuel node.id [] visited [] with
      | none => rfl
      | some (v, some c) => rfl
      | some (v, none) => exact ihs v

/-- `_has_cycles` answers true exactly when `_validate_cycles` finds a cycle. -/
lemma hasCyclesO_eq (g : NodeGraph) :
    hasCyclesO g = Option.map Option.isSome (findCycle g) :=
  hasCyclesAux_eq g (dfsFuel g) g.nodes []

/-- A fold whose step only appends accumulates from the left. -/
lemma foldl_acc_append {α β : Type} (step : List α → β → List α)
    (hstep : ∀ acc b, step acc b = acc ++ step [] b) :
    ∀ (l : List β) (acc : List α), l.foldl step acc = acc ++ l.foldl step [] := by
  intro l
  induction l with
  | nil => intro acc; simp
  | cons b rest ih =>
    intro acc
    rw [List.foldl_cons, ih (step acc b), hstep acc b, List.foldl_cons, ih (step [] b),
      List.append_assoc]

/-- If an append-only fold produces nothing, every item contributed nothing. -/
lemma foldl_acc_nil_mem {α β : Type} (step : List α → β → List α)
    (hstep : ∀ acc b, step acc b = acc ++ step [] b)
    (l : List β) (h : l.foldl step [] = []) : ∀ b ∈ l, step [] b = [] := by
  induction l with
  | nil => intro b hb; simp at hb
  | cons b0 rest ih =>
    intro b hb
    rw [List.foldl_cons, foldl_acc_append step hstep rest (step [] b0)] at h
    obtain ⟨h1, h2⟩ := List.append_eq_nil.mp h
    rcases List.mem_cons.mp hb with rfl | hmem
    · exact h1
    · exact ih h2 b hmem

/-- The per-node fold of `_validate_nodes` only appends. -/
lemma validateNodes_step_append (g : NodeGraph) :
    ∀ (acc : List VError) (n : Node),
      (fun (acc : List VError) (n : Node) =>
        match get_node_definition n.type with
        | none => acc ++ [mkError ("Unknown node type: " ++ n.type) (some n.id) none
            (some ("Node '" ++ n.id ++ "' has unrecognized type '" ++ n.type ++ "'"))]
        | some nd =>
          let connected := (g.edges.filter (fun e => e.target == n.id)).map
            (fun e => e.target_port)
          let validation := nd.validate n.parameters connected
          if validation.is_valid then acc
          else acc ++ validation.errors.map (fun err => mkError err (some n.id) none
            (some ("Parameter validation failed for node '" ++ n.id ++ "'")))) acc n =
      acc ++ (fun (acc : List VError) (n : Node) =>
        match get_node_definition n.type with
        | none => acc ++ [mkError ("Unknown node type: " ++ n.type) (some n.id) none
            (some ("Node '" ++ n.id ++ "' has unrecognized type '" ++ n.type ++ "'"))]
        | some nd =>
          let connected := (g.edges.filter (fun e => e.target == n.id)).map
            (fun e => e.target_port)
          let validation := nd.validate n.parameters connected
          if validation.is_valid then acc
          else acc ++ validation.errors.map (fun err => mkError err (some n.id) none
            (some ("Parameter validation failed for node '" ++ n.id ++ "'")))) [] n := by
  intro acc n
  cases hdef : get_node_definition n.type with
  | none => simp [hdef]
  | some nd =>
    by_cases hval : (nd.validate n.parameters
        ((g.edges.filter (fun e => e.target == n.id)).map (fun e => e.target_port))).is_valid
    · simp [hdef, hval]
    · simp [hdef, hval]

/-- If `_validate_nodes` reports no error, every node's type is registered. -/
lemma validateNodes_nil_known (g : NodeGraph) (h : (validateNodes g).1 = []) :
    ∀ n ∈ g.nodes, (get_node_definition n.type).isSome := by
  rw [validateNodes] at h
  by_cases hemp : g.nodes.length = 0
  · rw [if_pos hemp] at h
    exact absurd h (by simp)
  · rw [if_neg hemp] at h
    simp only at h
    obtain ⟨_, hfold⟩ := List.append_eq_nil.mp h
    intro n hn
    have hcontrib := foldl_acc_nil_mem _ (validateNodes_step_append g) g.nodes hfold n hn
    cases hdef : get_node_definition n.type with
    | none =>
      rw [hdef] at hcontrib
      exact absurd hcontrib (by simp)
    | some nd => simp

/-- If `_validate_start_node` reports no error, there is exactly one Start. -/
lemma validateStartNode_nil (g : NodeGraph) (h : (validateStartNode g).1 = []) :
    (g.nodes.filter (fun n => n.type == "Start")).length = 1 := by
  rw [validateStartNode] at h
  by_cases h0 : (g.nodes.filter (fun n => n.type == "Start")).length = 0
  · rw [if_pos h0] at h
    exact absurd h (by simp)
  · rw [if_neg h0] at h
    by_cases h1 : (g.nodes.filter (fun n => n.type == "Start")).length > 1
    · rw [if_pos h1] at h
      exact absurd h (by simp)
    · omega

/-- If `_validate_cycles` reports no error, the DFS found no cycle. -/
lemma validateCycles_nil (g : NodeGraph) (h : (validateCycles g).1 = []) :
    findCycle g = some none := by
  rw [validateCycles] at h
  match hc : findCycle g with
  | none =>
    have := findCycle_isSome g
    rw [hc] at this
    exact absurd this (by simp)
  | some none => rfl
  | some (some c) =>
    rw [hc] at h
    exact absurd h (by simp)

/-- Every registered node type has a converter handler (the registry and the
handler table list the same twelve type ids). -/
lemma registry_handler (t : String) (h : (get_node_definition t).isSome) :
    node_handler_keys.contains t = true := by
  by_contra hc
  have hne : ∀ s : String, node_handler_keys.contains s = true → ¬ (t = s) := by
    intro s hs he
    rw [he] at hc
    exact hc hs
  have hnone : get_node_definition t = none := by
    rw [get_node_definition, if_neg (hne "Start" (by decide)),
      if_neg (hne "End" (by decide)), if_neg (hne "Home" (by decide)),
      if_neg (hne "LinearMove" (by decide)), if_neg (hne "ExtrudeMove" (by decide)),
      if_neg (hne "SetHotend" (by decide)), if_neg (hne "WaitHotend" (by decide)),
      if_neg (hne "SetBed" (by decide)), if_neg (hne "WaitBed" (by decide)),
      if_neg (hne "SetFan" (by decide)), if_neg (hne "Comment" (by decide)),
      if_neg (hne "CustomGCode" (by decide))]
  rw [hnone] at h
  exact absurd h (by simp)

/-- A valid report means every component produced no error. -/
lemma validate_errors_split (g : NodeGraph) (h : (validate g).is_valid = true) :
    (validateNodes g).1 = [] ∧ (validateEdges g).1 = [] ∧
    (validateStartNode g).1 = [] ∧ (validateCycles g).1 = [] := by
  rw [validate] at h
  simp only [List.isEmpty_iff, List.append_eq_nil] at h
  exact ⟨h.1.1.1.1.1.1.1, h.1.1.1.1.1.1.2, h.1.1.1.1.1.2, h.1.1.1.2⟩

/-- C1: whenever the validator reports a valid graph, the converter succeeds
and returns a step sequence. -/
theorem valid_implies_convert_ok (g : NodeGraph)
    (h : (validate g).is_valid = true) : ∃ steps, convert g = Except.ok steps := by
  obtain ⟨hnodes, _, hstart, hcyc⟩ := validate_errors_split g h
  have hfind : findCycle g = some none := validateCycles_nil g hcyc
  have hhc : hasCyclesO g = some false := by
    rw [hasCyclesO_eq, hfind]
    rfl
  have htypes : g.nodes.find? (fun n => ¬ (node_handler_keys.contains n.type)) = none := by
    rw [List.find?_eq_none]
    intro n hn
    have hreg := registry_handler n.type (validateNodes_nil_known g hnodes n hn)
    have hmem : n.type ∈ node_handler_keys := by simpa using hreg
    simp [hmem]
  have hstart1 := validateStartNode_nil g hstart
  have hexists : ∃ n ∈ g.nodes, (fun n => n.type == "Start") n = true := by
    have hne : g.nodes.filter (fun n => n.type == "Start") ≠ [] := by
      intro hnil
      rw [hnil] at hstart1
      simp at hstart1
    obtain ⟨x, hx⟩ := List.exists_mem_of_ne_nil _ hne
    exact ⟨x, (List.mem_filter.mp hx).1, (List.mem_filter.mp hx).2⟩
  obtain ⟨start, hfound⟩ := List.find?_isSome.mpr hexists |> Option.isSome_iff_exists.mp
  rw [convert, hhc, htypes, hfound]
  exact ⟨_, rfl⟩

/-- C1 witness: scenario A's graph validates and converts. -/
theorem valid_implies_convert_ok_witness :
    (validate graphA).is_valid = true ∧ ∃ steps, convert graphA = Except.ok steps :=
  ⟨by decide, valid_implies_convert_ok graphA (by decide)⟩

/-- What the spec calls a cycle path: an ordered chain of at least two ids,
consecutive ones connected by successor edges, closing back on its first id. -/
def closedChain (g : NodeGraph) (c : List String) : Prop :=
  2 ≤ c.length ∧ List.Chain' (edgeRel g) c ∧ c.head? = c.getLast?

/-- The cycle list the DFS builds on a recursion-stack hit is a closed chain:
the suffix of the current path from the stacked id, plus that id again. -/
lemma cycle_construct (g : NodeGraph) (path2 : List String) (s : String)
    (hchain : List.Chain' (edgeRel g) path2) (hmem : s ∈ path2)
    (hedge : ∀ x, path2.getLast? = some x → edgeRel g x s) :
    closedChain g (path2.drop (path2.indexOf s) ++ [s]) := by
  have hk : path2.indexOf s < path2.length := List.indexOf_lt_length.mpr hmem
  have hdrop : path2.drop (path2.indexOf s) =
      path2[path2.indexOf s] :: path2.drop (path2.indexOf s + 1) :=
    List.drop_eq_getElem_cons hk
  have hget : path2[path2.indexOf s] = s := List.getElem_indexOf hk
  have hne : path2.drop (path2.indexOf s) ≠ [] := by
    rw [hdrop]
    exact List.cons_ne_nil _ _
  have hlast_eq : (path2.drop (path2.indexOf s)).getLast? = path2.getLast? := by
    conv_rhs => rw [← List.take_append_drop (path2.indexOf s) path2]
    rw [List.getLast?_append_of_ne_nil _ hne]
  have hchain_drop : List.Chain' (edgeRel g) (path2.drop (path2.indexOf s)) := by
    rw [← List.take_append_drop (path2.indexOf s) path2] at hchain
    exact hchain.right_of_append
  refine ⟨?_, ?_, ?_⟩
  · rw [List.length_append, List.length_drop]
    simp only [List.length_singleton]
    omega
  · rw [List.chain'_append]
    refine ⟨hchain_drop, List.chain'_singleton s, ?_⟩
    intro x hx y hy
    simp only [List.head?_cons, Option.mem_def, Option.some.injEq] at hy
    subst hy
    rw [hlast_eq] at hx
    exact hedge x hx
  · rw [List.getLast?_append_of_ne_nil _ (List.cons_ne_nil s []), hdrop, hget]
    rfl

/-- Soundness of the DFS cycle result: any returned cycle is a closed chain
over the successor edges. The path argument accumulates the chain of
ancestors, and the recursion stack always sits inside it. -/
lemma dfsVisit_cycle_sound (g : NodeGraph) :
    ∀ (fuel : Nat) (n : String) (path vis rs : List String)
      (v' : List String) (c : List String),
      List.Chain' (edgeRel g) (path ++ [n]) →
      (∀ x ∈ rs, x ∈ path) →
      dfsVisit g fuel n path vis rs = some (v', some c) →
      closedChain g c := by
  intro fuel
  induction fuel with
  | zero =>
    intro n path vis rs v' c _ _ h
    exact absurd h (by simp [dfsVisit])
  | succ f ih =>
    intro n path vis rs v' c hchain hrs h
    rw [dfsVisit] at h
    have hedge_last : ∀ s, edgeRel g n s →
        ∀ x, (path ++ [n]).getLast? = some x → edgeRel g x s := by
      intro s hs x hx
      rw [List.getLast?_append_of_ne_nil _ (List.cons_ne_nil n [])] at hx
      simp only [List.getLast?_singleton, Option.some.injEq] at hx
      subst hx
      exact hs
    have haux : ∀ (ss : List String), (∀ s ∈ ss, s ∈ g.get_successors n) →
        ∀ (acc : Option (List String × Option (List String))),
        (∀ v0 c0, acc = some (v0, some c0) → closedChain g c0) →
        (ss.foldl (fun acc s =>
          match acc with
          | none => none
          | some (vis2, some c) => some (vis2, some c)
          | some (vis2, none) =>
            if s ∈ vis2 then
              if s ∈ n :: rs then
                some (vis2, some ((path ++ [n]).drop ((path ++ [n]).indexOf s) ++ [s]))
              else some (vis2, none)
            else dfsVisit g f s (path ++ [n]) vis2 (n :: rs)) acc) = some (v', some c) →
        closedChain g c := by
      intro ss
      induction ss with
      | nil =>
        intro _ acc hacc hfold
        exact hacc v' c hfold
      | cons s rest ihs =>
        intro hss acc hacc hfold
        rw [List.foldl_cons] at hfold
        match acc with
        | none =>
          rw [foldl_fixed_point _ none (fun _ => rfl)] at hfold
          exact absurd hfold (by simp)
        | some (v, some c0) =>
          exact ihs (fun x hx => hss x (List.mem_cons_of_mem _ hx)) _ hacc hfold
        | some (v, none) =>
          by_cases hsv : s ∈ v
          · by_cases hsr : s ∈ n :: rs
            · simp only [hsv, hsr, if_true, if_false] at hfold
              refine ihs (fun x hx => hss x (List.mem_cons_of_mem _ hx)) _ ?_ hfold
              intro v0 c0 hap
              injection hap with hap
              injection hap with hap1 hap2
              injection hap2 with hap2
              subst hap2
              have hmem : s ∈ path ++ [n] := by
                rcases List.mem_cons.mp hsr with rfl | hsr2
                · exact List.mem_append.mpr (Or.inr (List.mem_cons_self _ _))
                · exact List.mem_append.mpr (Or.inl (hrs s hsr2))
              have hedge : edgeRel g n s :=
                (mem_successors_iff g n s).mp (hss s (List.mem_cons_self _ _))
              exact cycle_construct g (path ++ [n]) s hchain hmem (hedge_last s hedge)
            · simp only [hsv, hsr, if_true, if_false] at hfold
              refine ihs (fun x hx => hss x (List.mem_cons_of_mem _ hx)) _ ?_ hfold
              intro v0 c0 hap
              injection hap with hap
              injection hap with hap1 hap2
              exact absurd hap2 (by simp)
          · simp only [hsv, if_false] at hfold
            have hedge : edgeRel g n s :=
              (mem_successors_iff g n s).mp (hss s (List.mem_cons_self _ _))
            have hchain2 : List.Chain' (edgeRel g) ((path ++ [n]) ++ [s]) := by
              rw [List.chain'_append]
              exact ⟨hchain, List.chain'_singleton s,
                fun x hx y hy => by
                  simp only [List.head?_cons, Option.mem_def, Option.some.injEq] at hy
                  subst hy
                  exact hedge_last s hedge x hx⟩
            have hrs2 : ∀ x ∈ n :: rs, x ∈ path ++ [n] := by
              intro x hx
              rcases List.mem_cons.mp hx with rfl | hx2
              · exact List.mem_append.mpr (Or.inr (List.mem_cons_self _ _))
              · exact List.mem_append.mpr (Or.inl (hrs x hx2))
            match hc2 : dfsVisit g f s (path ++ [n]) v (n :: rs) with
            | none =>
              rw [hc2, foldl_fixed_point _ none (fun _ => rfl)] at hfold
              exact absurd hfold (by simp)
            | some (vc, some cc) =>
              rw [hc2] at hfold
              refine ihs (fun x hx => hss x (List.mem_cons_of_mem _ hx)) _ ?_ hfold
              intro v0 c0 hap
              injection hap with hap
              injection hap with hap1 hap2
              injection hap2 with hap2
              subst hap2
              exact ih s (path ++ [n]) v (n :: rs) vc cc hchain2 hrs2 hc2
            | some (vc, none) =>
              rw [hc2] at hfold
              refine ihs (fun x hx => hss x (List.mem_cons_of_mem _ hx)) _ ?_ hfold
              intro v0 c0 hap
              injection hap with hap
              injection hap with hap1 hap2
              exact absurd hap2 (by simp)
    refine haux (g.get_successors n) (fun s hs => hs) (some (n :: vis, none)) ?_ h
    intro v0 c0 hap
    injection hap with hap
    injection hap with hap1 hap2
    exact absurd hap2 (by simp)

/-- Soundness through the outer loop: the first cycle the validator reports is
a closed chain. -/
lemma findCycle_sound (g : NodeGraph) (c : List String)
    (h : findCycle g = some (some c)) : closedChain g c := by
  rw [findCycle] at h
  have haux : ∀ (ns : List Node) (visited : List String),
      findCycleAux g (dfsFuel g) ns visited = some (some c) → closedChain g c := by
    intro ns
    induction ns with
    | nil => intro visited h2; exact absurd h2 (by simp [findCycleAux])
    | cons node rest ihs =>
      intro visited h2
      rw [findCycleAux] at h2
      by_cases hv : node.id ∈ visited
      · rw [if_pos hv] at h2
        exact ihs visited h2
      · rw [if_neg hv] at h2
        match hc2 : dfsVisit g (dfsFuel g) node.id [] visited [] with
        | none => rw [hc2] at h2; exact absurd h2 (by simp)
        | some (v, some c0) =>
          rw [hc2] at h2
          simp only [Option.some.injEq] at h2
          subst h2
          exact dfsVisit_cycle_sound g (dfsFuel g) node.id [] visited [] v c0
            (by simp) (by simp) hc2
        | some (v, none) =>
          rw [hc2] at h2
          exact ihs v h2
  exact haux g.nodes [] h

/-- The finished region of the DFS (visited ids off the recursion stack) is
closed under successor edges. -/
def doneClosed (g : NodeGraph) (v rs : List String) : Prop :=
  ∀ x, x ∈ v → x ∉ rs → ∀ y, edgeRel g x y → y ∈ v ∧ y ∉ rs

/-- No id in the finished region lies on a directed cycle. -/
def doneAcyclic (g : NodeGraph) (v rs : List String) : Prop :=
  ∀ x, x ∈ v → x ∉ rs → ¬ Relation.TransGen (edgeRel g) x x

/-- Walking edges from the finished region stays in the finished region. -/
lemma doneReflTrans (g : NodeGraph) (v rs : List String) (hc : doneClosed g v rs) :
    ∀ a b, Relation.ReflTransGen (edgeRel g) a b → a ∈ v → a ∉ rs → b ∈ v ∧ b ∉ rs := by
  intro a b h
  induction h using Relation.ReflTransGen.head_induction_on with
  | refl => intro h1 h2; exact ⟨h1, h2⟩
  | head hstep _ ihtail =>
    intro h1 h2
    obtain ⟨hy1, hy2⟩ := hc _ h1 h2 _ hstep
    exact ihtail hy1 hy2

/-- Completeness invariant of the DFS: a clean (cycle-free) return extends the
visited set so that, relative to the caller's recursion stack, the finished
region stays successor-closed and cycle-free and now includes the root. -/
lemma dfsVisit_none_done (g : NodeGraph) :
    ∀ (fuel : Nat) (n : String) (path vis rs : List String) (v' : List String),
      (∀ x ∈ rs, x ∈ vis) → n ∉ vis →
      doneClosed g vis rs → doneAcyclic g vis rs →
      dfsVisit g fuel n path vis rs = some (v', none) →
      doneClosed g v' rs ∧ doneAcyclic g v' rs ∧ vis ⊆ v' ∧ n ∈ v' ∧
        (∀ x ∈ rs, x ∈ v') := by
  intro fuel
  induction fuel with
  | zero =>
    intro n path vis rs v' _ _ _ _ h
    exact absurd h (by simp [dfsVisit])
  | succ f ih =>
    intro n path vis rs v' hrsv hnv hclosed hacyc h
    rw [dfsVisit] at h
    have hnrs : n ∉ rs := fun hx => hnv (hrsv n hx)
    -- invariants at the inner recursion stack n :: rs, starting from n :: vis
    have hclosed0 : doneClosed g (n :: vis) (n :: rs) := by
      intro x hx hxr y hy
      have hxn : ¬ (x = n) := fun he => hxr (he ▸ List.mem_cons_self _ _)
      have hxv : x ∈ vis := by
        rcases List.mem_cons.mp hx with he | hv2
        · exact absurd he hxn
        · exact hv2
      have hxr2 : x ∉ rs := fun hx2 => hxr (List.mem_cons_of_mem _ hx2)
      obtain ⟨hy1, hy2⟩ := hclosed x hxv hxr2 y hy
      have hyn : ¬ (y = n) := fun he => hnv (he ▸ hy1)
      exact ⟨List.mem_cons_of_mem _ hy1,
        fun hy3 => (List.mem_cons.mp hy3).elim hyn hy2⟩
    have hacyc0 : doneAcyclic g (n :: vis) (n :: rs) := by
      intro x hx hxr
      have hxn : ¬ (x = n) := fun he => hxr (he ▸ List.mem_cons_self _ _)
      have hxv : x ∈ vis := by
        rcases List.mem_cons.mp hx with he | hv2
        · exact absurd he hxn
        · exact hv2
      exact hacyc x hxv (fun hx2 => hxr (List.mem_cons_of_mem _ hx2))
    have hrsv0 : ∀ x ∈ n :: rs, x ∈ n :: vis := by
      intro x hx
      rcases List.mem_cons.mp hx with rfl | hx2
      · exact List.mem_cons_self _ _
      · exact List.mem_cons_of_mem _ (hrsv x hx2)
    have haux : ∀ (ss : List String), (∀ s ∈ ss, s ∈ g.get_successors n) →
        ∀ (v : List String),
        doneClosed g v (n :: rs) → doneAcyclic g v (n :: rs) →
        (∀ x ∈ n :: rs, x ∈ v) →
        (ss.foldl (fun acc s =>
          match acc with
          | none => none
          | some (vis2, some c) => some (vis2, some c)
          | some (vis2, none) =>
            if s ∈ vis2 then
              if s ∈ n :: rs then
                some (vis2, some ((path ++ [n]).drop ((path ++ [n]).indexOf s) ++ [s]))
              else some (vis2, none)
            else dfsVisit g f s (path ++ [n]) vis2 (n :: rs)) (some (v, none)))
          = some (v', none) →
        doneClosed g v' (n :: rs) ∧ doneAcyclic g v' (n :: rs) ∧ v ⊆ v' ∧
          (∀ s ∈ ss, s ∈ v' ∧ s ∉ (n :: rs)) ∧ (∀ x ∈ n :: rs, x ∈ v') := by
      intro ss
      induction ss with
      | nil =>
        intro _ v hcl hac hrs2 hfold
        simp only [List.foldl_nil, Option.some.injEq, Prod.mk.injEq] at hfold
        obtain ⟨rfl, -⟩ := hfold
        exact ⟨hcl, hac, fun x hx => hx, by simp, hrs2⟩
      | cons s rest ihs =>
        intro hss v hcl hac hrs2 hfold
        rw [List.foldl_cons] at hfold
        by_cases hsv : s ∈ v
        · by_cases hsr : s ∈ n :: rs
          · simp only [hsv, hsr, if_true, if_false] at hfold
            rw [foldl_fixed_point _ _ (fun _ => rfl)] at hfold
            simp only [Option.some.injEq, Prod.mk.injEq] at hfold
            exact absurd hfold.2 (by simp)
          · simp only [hsv, hsr, if_true, if_false] at hfold
            obtain ⟨hc1, hc2, hc3, hc4, hc5⟩ :=
              ihs (fun x hx => hss x (List.mem_cons_of_mem _ hx)) v hcl hac hrs2 hfold
            refine ⟨hc1, hc2, hc3, ?_, hc5⟩
            intro x hx
            rcases List.mem_cons.mp hx with rfl | hx2
            · exact ⟨hc3 hsv, hsr⟩
            · exact hc4 x hx2
        · simp only [hsv, if_false] at hfold
          match hc0 : dfsVisit g f s (path ++ [n]) v (n :: rs) with
          | none =>
            rw [hc0, foldl_fixed_point _ none (fun _ => rfl)] at hfold
            exact absurd hfold (by simp)
          | some (vc, some cc) =>
            rw [hc0, foldl_fixed_point _ _ (fun _ => rfl)] at hfold
            simp only [Option.some.injEq, Prod.mk.injEq] at hfold
            exact absurd hfold.2 (by simp)
          | some (vc, none) =>
            rw [hc0] at hfold
            obtain ⟨hd1, hd2, hd3, hd4, hd5⟩ :=
              ih s (path ++ [n]) v (n :: rs) vc hrs2 hsv hcl hac hc0
            have hsr : s ∉ n :: rs := fun hx => hsv (hrs2 s hx)
            obtain ⟨he1, he2, he3, he4, he5⟩ :=
              ihs (fun x hx => hss x (List.mem_cons_of_mem _ hx)) vc hd1 hd2 hd5 hfold
            refine ⟨he1, he2, fun x hx => he3 (hd3 hx), ?_, he5⟩
            intro x hx
            rcases List.mem_cons.mp hx with rfl | hx2
            · exact ⟨he3 hd4, hsr⟩
            · exact he4 x hx2
    obtain ⟨ha1, ha2, ha3, ha4, ha5⟩ := haux (g.get_successors n) (fun s hs => hs)
      (n :: vis) hclosed0 hacyc0 hrsv0 h
    have hsucc_done : ∀ y, edgeRel g n y → y ∈ v' ∧ y ∉ (n :: rs) := by
      intro y hy
      exact ha4 y ((mem_successors_iff g n y).mpr hy)
    have hclosed' : doneClosed g v' rs := by
      intro x hx hxr y hy
      by_cases hxn : x = n
      · subst hxn
        obtain ⟨hy1, hy2⟩ := hsucc_done y hy
        exact ⟨hy1, fun hy3 => hy2 (List.mem_cons_of_mem _ hy3)⟩
      · have hxr2 : x ∉ n :: rs := fun hx2 =>
          (List.mem_cons.mp hx2).elim hxn hxr
        obtain ⟨hy1, hy2⟩ := ha1 x hx hxr2 y hy
        exact ⟨hy1, fun hy3 => hy2 (List.mem_cons_of_mem _ hy3)⟩
    refine ⟨hclosed', ?_, fun x hx => ha3 (List.mem_cons_of_mem _ hx),
      ha3 (List.mem_cons_self _ _), fun x hx => ha3 (List.mem_cons_of_mem _ (hrsv x hx))⟩
    intro x hx hxr
    by_cases hxn : x = n
    · subst hxn
      intro hcyc
      obtain ⟨y, hy1, hy2⟩ := Relation.TransGen.head'_iff.mp hcyc
      obtain ⟨hm1, hm2⟩ := hsucc_done y hy1
      obtain ⟨hn1, hn2⟩ := doneReflTrans g v' (x :: rs) ha1 y x hy2 hm1 hm2
      exact hn2 (List.mem_cons_self _ _)
    · exact ha2 x hx (fun hx2 => (List.mem_cons.mp hx2).elim hxn hxr)

/-- If the whole outer loop finds no cycle, no listed node lies on a directed
cycle of the successor relation. -/
lemma findCycleAux_none_acyclic (g : NodeGraph) (fuel : Nat) :
    ∀ (ns : List Node) (visited : List String),
      doneClosed g visited [] → doneAcyclic g visited [] →
      findCycleAux g fuel ns visited = some none →
      ∀ x ∈ ns, ¬ Relation.TransGen (edgeRel g) x.id x.id := by
  intro ns
  induction ns with
  | nil => intro visited _ _ _ x hx; exact absurd hx (by simp)
  | cons node rest ihs =>
    intro visited hcl hac h x hx
    rw [findCycleAux] at h
    by_cases hv : node.id ∈ visited
    · rw [if_pos hv] at h
      rcases List.mem_cons.mp hx with rfl | hx2
      · exact hac x.id hv (by simp)
      · exact ihs visited hcl hac h x hx2
    · rw [if_neg hv] at h
      match hc0 : dfsVisit g fuel node.id [] visited [] with
      | none => rw [hc0] at h; exact absurd h (by simp)
      | some (v, some c) => rw [hc0] at h; exact absurd h (by simp)
      | some (v, none) =>
        rw [hc0] at h
        obtain ⟨hd1, hd2, hd3, hd4, _⟩ :=
          dfsVisit_none_done g fuel node.id [] visited [] v (by simp) hv hcl hac hc0
        rcases List.mem_cons.mp hx with rfl | hx2
        · exact hd2 x.id hd4 (by simp)
        · exact ihs v hd1 hd2 h x hx2

/-- Completeness: a no-cycle verdict of `_validate_cycles` really means no
node lies on a directed cycle. -/
lemma findCycle_none_acyclic (g : NodeGraph) (h : findCycle g = some none) :
    ∀ x ∈ g.nodes, ¬ Relation.TransGen (edgeRel g) x.id x.id := by
  rw [findCycle] at h
  exact findCycleAux_none_acyclic g (dfsFuel g) g.nodes []
    (fun x hx hxr y hy => absurd hx (by simp))
    (fun x hx hxr => absurd hx (by simp)) h

/-- A string with a prefix that is not a prefix of `t` is not `t`. -/
lemma append_ne_of_not_leading (a b t : String) (h : ¬ (a.data <+: t.data)) :
    a ++ b ≠ t := by
  intro he
  apply h
  rw [← he, String.data_append]
  exact ⟨b.data, rfl⟩

/-- Membership in an append-only fold comes from some item's contribution. -/
lemma foldl_acc_mem {α β : Type} (step : List α → β → List α)
    (hstep : ∀ acc b, step acc b = acc ++ step [] b)
    (l : List β) (e : α) (he : e ∈ l.foldl step []) : ∃ b ∈ l, e ∈ step [] b := by
  induction l with
  | nil => simp at he
  | cons b0 rest ih =>
    rw [List.foldl_cons, foldl_acc_append step hstep rest (step [] b0)] at he
    rcases List.mem_append.mp he with h1 | h2
    · exact ⟨b0, List.mem_cons_self _ _, by simpa using h1⟩
    · obtain ⟨b, hb, hbe⟩ := ih h2
      exact ⟨b, List.mem_cons_of_mem _ hb, hbe⟩

/-- Every message `checkBounds` produces starts with the parameter label. -/
lemma checkBounds_msg (label : String) (v : Rat) (mn mx : Option Int) (m : String)
    (h : checkBounds label v mn mx = (false, some m)) :
    ∃ suffix, m = label ++ suffix := by
  rw [checkBounds.eq_def] at h
  cases mn with
  | some m0 =>
    simp only [] at h
    by_cases hlt : v < (m0 : Rat)
    · rw [if_pos hlt] at h
      injection h with h1 h2
      injection h2 with h2
      exact ⟨" must be >= " ++ toString m0, by rw [← h2, String.append_assoc]⟩
    · rw [if_neg hlt] at h
      cases mx with
      | some M =>
        simp only [] at h
        by_cases hgt : (M : Rat) < v
        · rw [if_pos hgt] at h
          injection h with h1 h2
          injection h2 with h2
          exact ⟨" must be <= " ++ toString M, by rw [← h2, String.append_assoc]⟩
        · rw [if_neg hgt] at h
          exact absurd h (by simp)
      | none => exact absurd h (by simp)
  | none =>
    simp only [] at h
    cases mx with
    | some M =>
      simp only [] at h
      by_cases hgt : (M : Rat) < v
      · rw [if_pos hgt] at h
        injection h with h1 h2
        injection h2 with h2
        exact ⟨" must be <= " ++ toString M, by rw [← h2, String.append_assoc]⟩
      · rw [if_neg hgt] at h
        exact absurd h (by simp)
    | none => exact absurd h (by simp)

/-- Every message `ParameterDefinition.validate` produces starts with the
parameter label. -/
lemma paramValidate_msg (pd : ParameterDefinition) (v : PValue) (m : String)
    (h : pd.validate v = (false, some m)) : ∃ suffix, m = pd.label ++ suffix := by
  rw [ParameterDefinition.validate] at h
  by_cases h0 : v = PValue.vNone
  · rw [if_pos h0] at h
    by_cases hr : pd.required = true
    · rw [if_pos hr] at h
      injection h with h1 h2
      injection h2 with h2
      exact ⟨" is required", h2.symm⟩
    · rw [if_neg hr] at h
      exact absurd h (by simp)
  · rw [if_neg h0] at h
    by_cases h1 : pd.param_type = ParameterType.number
    · rw [if_pos h1] at h
      by_cases h2 : v.isNumberInst = true
      · rw [if_neg (by simpa using h2)] at h
        exact checkBounds_msg _ _ _ _ _ h
      · rw [if_pos (by simpa using h2)] at h
        injection h with hm1 hm2
        injection hm2 with hm2
        exact ⟨" must be a number", hm2.symm⟩
    · rw [if_neg h1] at h
      by_cases h3 : pd.param_type = ParameterType.integer
      · rw [if_pos h3] at h
        by_cases h4 : v.isIntInst = true
        · rw [if_neg (by simpa using h4)] at h
          exact checkBounds_msg _ _ _ _ _ h
        · rw [if_pos (by simpa using h4)] at h
          injection h with hm1 hm2
          injection hm2 with hm2
          exact ⟨" must be an integer", hm2.symm⟩
      · rw [if_neg h3] at h
        by_cases h5 : pd.param_type = ParameterType.boolean
        · rw [if_pos h5] at h
          by_cases h6 : v.isBoolInst = true
          · rw [if_neg (by simpa using h6)] at h
            exact absurd h (by simp)
          · rw [if_pos (by simpa using h6)] at h
            injection h with hm1 hm2
            injection hm2 with hm2
            exact ⟨" must be a boolean", hm2.symm⟩
        · rw [if_neg h5] at h
          by_cases h7 : pd.param_type = ParameterType.str
          · rw [if_pos h7] at h
            by_cases h8 : v.isStrInst = true
            · rw [if_neg (by simpa using h8)] at h
              exact absurd h (by simp)
            · rw [if_pos (by simpa using h8)] at h
              injection h with hm1 hm2
              injection hm2 with hm2
              exact ⟨" must be a string", hm2.symm⟩
          · rw [if_neg h7] at h
            by_cases h9 : pd.param_type = ParameterType.select
            · rw [if_pos h9] at h
              match hopt : pd.options with
              | none => rw [hopt] at h; exact absurd h (by simp)
              | some [] => rw [hopt] at h; simp only [] at h; exact absurd h (by simp)
              | some (o :: os) =>
                rw [hopt] at h
                simp only [] at h
                by_cases h10 : ¬ ((o :: os).any (fun opt => v.eqStr opt)) = true
                · rw [if_pos h10] at h
                  injection h with hm1 hm2
                  injection hm2 with hm2
                  exact ⟨" must be one of: " ++ String.intercalate (", ") (o :: os),
                    by rw [← hm2, String.append_assoc]⟩
                · rw [if_neg h10] at h
                  exact absurd h (by simp)
            · rw [if_neg h9] at h
              exact absurd h (by simp)

/-- Every message `NodeDefinition.validate` produces is label-prefixed or a
required-input message. -/
lemma nodeDefValidate_msg (nd : NodeDefinition) (params : List (String × PValue))
    (inputs : List String) (m : String)
    (hm : m ∈ (nd.validate params inputs).errors) :
    (∃ pd ∈ nd.parameters, ∃ suffix, m = pd.label ++ suffix) ∨
    (∃ ipd ∈ nd.inputs, m = "Required input '" ++ ipd.label ++ "' is missing") := by
  rw [NodeDefinition.validate] at hm
  simp only at hm
  have hstep2 : ∀ (acc : List String) (ipd : PortDefinition),
      (fun (acc : List String) (ipd : PortDefinition) =>
        if ipd.required = true ∧ ¬ inputs.contains ipd.id = true then
          acc ++ ["Required input '" ++ ipd.label ++ "' is missing"]
        else acc) acc ipd =
      acc ++ (fun (acc : List String) (ipd : PortDefinition) =>
        if ipd.required = true ∧ ¬ inputs.contains ipd.id = true then
          acc ++ ["Required input '" ++ ipd.label ++ "' is missing"]
        else acc) [] ipd := by
    intro acc ipd
    simp only []
    by_cases hc : ipd.required = true ∧ ¬ inputs.contains ipd.id = true
    · rw [if_pos hc, if_pos hc, List.nil_append]
    · rw [if_neg hc, if_neg hc, List.append_nil]
  rw [foldl_acc_append _ hstep2] at hm
  rcases List.mem_append.mp hm with hp | hi
  · left
    have hstep1 : ∀ (acc : List String) (pd : ParameterDefinition),
        (fun (acc : List String) (pd : ParameterDefinition) =>
          match pd.validate ((alistGet params pd.id).getD PValue.vNone) with
          | (false, some msg) => acc ++ [msg]
          | _ => acc) acc pd =
        acc ++ (fun (acc : List String) (pd : ParameterDefinition) =>
          match pd.validate ((alistGet params pd.id).getD PValue.vNone) with
          | (false, some msg) => acc ++ [msg]
          | _ => acc) [] pd := by
      intro acc pd
      match hv : pd.validate ((alistGet params pd.id).getD PValue.vNone) with
      | (false, some msg) => simp [hv]
      | (false, none) => simp [hv]
      | (true, omsg) => simp [hv]
    obtain ⟨pd, hpd, hcontrib⟩ := foldl_acc_mem _ hstep1 nd.parameters m hp
    refine ⟨pd, hpd, ?_⟩
    rcases hval : pd.validate ((alistGet params pd.id).getD PValue.vNone) with ⟨b, omsg⟩
    rw [hval] at hcontrib
    cases b with
    | false =>
      cases omsg with
      | none => exact absurd hcontrib (by simp)
      | some msg =>
        simp only [List.nil_append, List.mem_singleton] at hcontrib
        subst hcontrib
        exact paramValidate_msg pd _ m hval
    | true => exact absurd hcontrib (by simp)
  · right
    obtain ⟨ipd, hipd, hcontrib⟩ := foldl_acc_mem _ hstep2 nd.inputs m hi
    refine ⟨ipd, hipd, ?_⟩
    by_cases hc : ipd.required = true ∧ ¬ inputs.contains ipd.id = true
    · rw [if_pos hc] at hcontrib
      simp only [List.nil_append, List.mem_singleton] at hcontrib
      exact hcontrib
    · rw [if_neg hc] at hcontrib
      exact absurd hcontrib (by simp)

/-- The twelve values of `NODE_REGISTRY`. -/
def registryDefs : List NodeDefinition :=
  [START_NODE, END_NODE, HOME_NODE, LINEAR_MOVE_NODE, EXTRUDE_MOVE_NODE,
   SET_HOTEND_NODE, WAIT_HOTEND_NODE, SET_BED_NODE, WAIT_BED_NODE, SET_FAN_NODE,
   COMMENT_NODE, CUSTOM_GCODE_NODE]

/-- Any definition the registry lookup returns is one of the twelve. -/
lemma get_node_definition_mem (t : String) (nd : NodeDefinition)
    (h : get_node_definition t = some nd) : nd ∈ registryDefs := by
  rw [get_node_definition] at h
  by_cases h1 : t = "Start"
  · rw [if_pos h1] at h
    injection h with h2
    subst h2
    exact List.Mem.head _
  rw [if_neg h1] at h
  by_cases h2 : t = "End"
  · rw [if_pos h2] at h
    injection h with h2
    subst h2
    exact List.Mem.tail _ (List.Mem.head _)
  rw [if_neg h2] at h
  by_cases h3 : t = "Home"
  · rw [if_pos h3] at h
    injection h with h2
    subst h2
    exact List.Mem.tail _ (List.Mem.tail _ (List.Mem.head _))
  rw [if_neg h3] at h
  by_cases h4 : t = "LinearMove"
  · rw [if_pos h4] at h
    injection h with h2
    subst h2
    exact List.Mem.tail _ (List.Mem.tail _ (List.Mem.tail _ (List.Mem.head _)))
  rw [if_neg h4] at h
  by_cases h5 : t = "ExtrudeMove"
  · rw [if_pos h5] at h
    injection h with h2
    subst h2
    exact List.Mem.tail _ (List.Mem.tail _ (List.Mem.tail _ (List.Mem.tail _ (List.Mem.head _))))
  rw [if_neg h5] at h
  by_cases h6 : t = "SetHotend"
  · rw [if_pos h6] at h
    injection h with h2
    subst h2
    exact List.Mem.tail _ (List.Mem.tail _ (List.Mem.tail _ (List.Mem.tail _ (List.Mem.tail _ (List.Mem.head _)))))
  rw [if_neg h6] at h
  by_cases h7 : t = "WaitHotend"
  · rw [if_pos h7] at h
    injection h with h2
    subst h2
    exact List.Mem.tail _ (List.Mem.tail _ (List.Mem.tail _ (List.Mem.tail _ (List.Mem.tail _ (List.Mem.tail _ (List.Mem.head _))))))
  rw [if_neg h7] at h
  by_cases h8 : t = "SetBed"
  · rw [if_pos h8] at h
    injection h with h2
    subst h2
    exact List.Mem.tail _ (List.Mem.tail _ (List.Mem.tail _ (List.Mem.tail _ (List.Mem.tail _ (List.Mem.tail _ (List.Mem.tail _ (List.Mem.head _)))))))
  rw [if_neg h8] at h
  by_cases h9 : t = "WaitBed"
  · rw [if_pos h9] at h
    injection h with h2
    subst h2
    exact List.Mem.tail _ (List.Mem.tail _ (List.Mem.tail _ (List.Mem.tail _ (List.Mem.tail _ (List.Mem.tail _ (List.Mem.tail _ (List.Mem.tail _ (List.Mem.head _))))))))
  rw [if_neg h9] at h
  by_cases h10 : t = "SetFan"
  · rw [if_pos h10] at h
    injection h with h2
    subst h2
    exact List.Mem.tail _ (List.Mem.tail _ (List.Mem.tail _ (List.Mem.tail _ (List.Mem.tail _ (List.Mem.tail _ (List.Mem.tail _ (List.Mem.tail _ (List.Mem.tail _ (List.Mem.head _)))))))))
  rw [if_neg h10] at h
  by_cases h11 : t = "Comment"
  · rw [if_pos h11] at h
    injection h with h2
    subst h2
    exact List.Mem.tail _ (List.Mem.tail _ (List.Mem.tail _ (List.Mem.tail _ (List.Mem.tail _ (List.Mem.tail _ (List.Mem.tail _ (List.Mem.tail _ (List.Mem.tail _ (List.Mem.tail _ (List.Mem.head _))))))))))
  rw [if_neg h11] at h
  by_cases h12 : t = "CustomGCode"
  · rw [if_pos h12] at h
    injection h with h2
    subst h2
    exact List.Mem.tail _ (List.Mem.tail _ (List.Mem.tail _ (List.Mem.tail _ (List.Mem.tail _ (List.Mem.tail _ (List.Mem.tail _ (List.Mem.tail _ (List.Mem.tail _ (List.Mem.tail _ (List.Mem.tail _ (List.Mem.head _)))))))))))
  rw [if_neg h12] at h
  exact absurd h (by simp)

/-- No parameter label of a registered node type is a prefix of the cycle
error message or of the unreachable warning message, so label-prefixed
parameter messages can never collide with either. -/
lemma registryDefs_labels : ∀ nd ∈ registryDefs, ∀ pd ∈ nd.parameters,
    ¬ (pd.label.data <+: ("Graph contains a cycle").data) ∧
    ¬ (pd.label.data <+: ("Node is unreachable from Start").data) := by decide

/-- A report entry whose message is neither the cycle error text nor the
unreachable warning text. -/
def msgSafe (e : VError) : Prop :=
  e.message ≠ "Graph contains a cycle" ∧ e.message ≠ "Node is unreachable from Start"

/-- `_validate_nodes` never emits the cycle or unreachable messages. -/
lemma validateNodes_msgSafe (g : NodeGraph) : ∀ e ∈ (validateNodes g).1, msgSafe e := by
  intro e he
  rw [validateNodes] at he
  by_cases hemp : g.nodes.length = 0
  · rw [if_pos hemp] at he
    simp only [List.mem_singleton] at he
    subst he
    exact ⟨by decide, by decide⟩
  · rw [if_neg hemp] at he
    simp only [] at he
    rcases List.mem_append.mp he with hdup | hper
    · obtain ⟨nid, _, he2⟩ := List.mem_map.mp hdup
      subst he2
      exact ⟨append_ne_of_not_leading _ _ _ (by decide),
        append_ne_of_not_leading _ _ _ (by decide)⟩
    · obtain ⟨n, _, hcontrib⟩ := foldl_acc_mem _ (validateNodes_step_append g)
        g.nodes e hper
      rcases hdef : get_node_definition n.type with - | nd
      · rw [hdef] at hcontrib
        simp only [List.nil_append, List.mem_singleton] at hcontrib
        subst hcontrib
        exact ⟨append_ne_of_not_leading _ _ _ (by decide),
          append_ne_of_not_leading _ _ _ (by decide)⟩
      · rw [hdef] at hcontrib
        simp only [] at hcontrib
        by_cases hval : (nd.validate n.parameters
            ((g.edges.filter (fun e => e.target == n.id)).map
              (fun e => e.target_port))).is_valid = true
        · rw [if_pos hval] at hcontrib
          exact absurd hcontrib (by simp)
        · rw [if_neg hval] at hcontrib
          simp only [List.nil_append] at hcontrib
          obtain ⟨err, herr, he2⟩ := List.mem_map.mp hcontrib
          subst he2
          rcases nodeDefValidate_msg nd n.parameters _ err herr with
            ⟨pd, hpd, suffix, hsuf⟩ | ⟨ipd, hipd, hreq⟩
          · have hlab := registryDefs_labels nd (get_node_definition_mem n.type nd hdef)
              pd hpd
            constructor
            · show err ≠ _
              rw [hsuf]
              exact append_ne_of_not_leading _ _ _ hlab.1
            · show err ≠ _
              rw [hsuf]
              exact append_ne_of_not_leading _ _ _ hlab.2
          · constructor
            · show err ≠ _
              rw [hreq, String.append_assoc]
              exact append_ne_of_not_leading _ _ _ (by decide)
            · show err ≠ _
              rw [hreq, String.append_assoc]
              exact append_ne_of_not_leading _ _ _ (by decide)

/-- The per-edge fold of `_validate_edges` only appends. -/
lemma validateEdges_step_append (g : NodeGraph) :
    ∀ (acc : List VError) (e : Edge),
      (fun (acc : List VError) (e : Edge) =>
        match g.get_node e.source with
        | none => acc ++ [mkError ("Edge references non-existent source node: " ++ e.source)
            none (some e.id) none]
        | some _ =>
          match g.get_node e.target with
          | none => acc ++ [mkError ("Edge references non-existent target node: " ++ e.target)
              none (some e.id) none]
          | some _ => acc) acc e =
      acc ++ (fun (acc : List VError) (e : Edge) =>
        match g.get_node e.source with
        | none => acc ++ [mkError ("Edge references non-existent source node: " ++ e.source)
            none (some e.id) none]
        | some _ =>
          match g.get_node e.target with
          | none => acc ++ [mkError ("Edge references non-existent target node: " ++ e.target)
              none (some e.id) none]
          | some _ => acc) [] e := by
  intro acc e
  rcases hs : g.get_node e.source with - | sn
  · simp [hs]
  · rcases ht : g.get_node e.target with - | tn
    · simp [hs, ht]
    · simp [hs, ht]

/-- `_validate_edges` never emits the cycle or unreachable messages. -/
lemma validateEdges_msgSafe (g : NodeGraph) : ∀ e ∈ (validateEdges g).1, msgSafe e := by
  intro e he
  rw [validateEdges] at he
  simp only [] at he
  rcases List.mem_append.mp he with hdup | hper
  · obtain ⟨eid, _, he2⟩ := List.mem_map.mp hdup
    subst he2
    exact ⟨append_ne_of_not_leading _ _ _ (by decide),
      append_ne_of_not_leading _ _ _ (by decide)⟩
  · obtain ⟨ed, _, hcontrib⟩ := foldl_acc_mem _ (validateEdges_step_append g)
      g.edges e hper
    rcases hs : g.get_node ed.source with - | sn
    · rw [hs] at hcontrib
      simp only [List.nil_append, List.mem_singleton] at hcontrib
      subst hcontrib
      exact ⟨append_ne_of_not_leading _ _ _ (by decide),
        append_ne_of_not_leading _ _ _ (by decide)⟩
    · rw [hs] at hcontrib
      rcases ht : g.get_node ed.target with - | tn
      · rw [ht] at hcontrib
        simp only [List.nil_append, List.mem_singleton] at hcontrib
        subst hcontrib
        exact ⟨append_ne_of_not_leading _ _ _ (by decide),
          append_ne_of_not_leading _ _ _ (by decide)⟩
      · rw [ht] at hcontrib
        exact absurd hcontrib (by simp)

/-- `_validate_start_node` never emits the cycle or unreachable messages. -/
lemma validateStartNode_msgSafe (g : NodeGraph) :
    ∀ e ∈ (validateStartNode g).1, msgSafe e := by
  intro e he
  rw [validateStartNode] at he
  by_cases h0 : (g.nodes.filter (fun n => n.type == "Start")).length = 0
  · rw [if_pos h0] at he
    simp only [List.mem_singleton] at he
    subst he
    exact ⟨by decide, by decide⟩
  · rw [if_neg h0] at he
    by_cases h1 : (g.nodes.filter (fun n => n.type == "Start")).length > 1
    · rw [if_pos h1] at he
      simp only [List.mem_singleton] at he
      subst he
      refine ⟨?_, ?_⟩
      · show ("Graph has multiple Start nodes (" ++ _ ++ ")") ≠ _
        rw [String.append_assoc]
        exact append_ne_of_not_leading _ _ _ (by decide)
      · show ("Graph has multiple Start nodes (" ++ _ ++ ")") ≠ _
        rw [String.append_assoc]
        exact append_ne_of_not_leading _ _ _ (by decide)
    · rw [if_neg h1] at he
      exact absurd he (by simp)

/-- An invariant carried through an arbitrary fold. -/
lemma foldl_all {α β : Type} (step : List α → β → List α) (P : α → Prop)
    (hstep : ∀ acc b, (∀ e ∈ acc, P e) → ∀ e ∈ step acc b, P e) :
    ∀ (l : List β) (acc : List α), (∀ e ∈ acc, P e) → ∀ e ∈ l.foldl step acc, P e := by
  intro l
  induction l with
  | nil => intro acc hacc e he; exact hacc e he
  | cons b rest ih => intro acc hacc e he; exact ih (step acc b) (hstep acc b hacc) e he

/-- `_validate_connections` never emits the cycle or unreachable messages. -/
lemma validateConnections_msgSafe (g : NodeGraph) :
    ∀ e ∈ (validateConnections g).1, msgSafe e := by
  intro e he
  rw [validateConnections] at he
  refine foldl_all _ msgSafe ?_ g.edges [] (by simp) e he
  intro acc ed hacc e2 he2
  rcases hs : g.get_node ed.source with - | sn <;> rcases ht : g.get_node ed.target with - | tn <;>
    simp only [hs, ht] at he2
  · exact hacc e2 he2
  · exact hacc e2 he2
  · exact hacc e2 he2
  · rcases hsd : get_node_definition sn.type with - | sd <;>
      rcases htd : get_node_definition tn.type with - | td <;>
      simp only [hsd, htd] at he2
    · exact hacc e2 he2
    · exact hacc e2 he2
    · exact hacc e2 he2
    · rcases hsp : sd.outputs.find? (fun p => p.id == ed.source_port) with - | sp <;>
        simp only [hsp] at he2
      · rcases List.mem_append.mp he2 with h1 | h2
        · exact hacc e2 h1
        · simp only [List.mem_singleton] at h2
          subst h2
          refine ⟨?_, ?_⟩
          · show ("Source node does not have output port '" ++ _ ++ "'") ≠ _
            rw [String.append_assoc]
            exact append_ne_of_not_leading _ _ _ (by decide)
          · show ("Source node does not have output port '" ++ _ ++ "'") ≠ _
            rw [String.append_assoc]
            exact append_ne_of_not_leading _ _ _ (by decide)
      · rcases htp : td.inputs.find? (fun p => p.id == ed.target_port) with - | tp <;>
          simp only [htp] at he2
        · rcases List.mem_append.mp he2 with h1 | h2
          · exact hacc e2 h1
          · simp only [List.mem_singleton] at h2
            subst h2
            refine ⟨?_, ?_⟩
            · show ("Target node does not have input port '" ++ _ ++ "'") ≠ _
              rw [String.append_assoc]
              exact append_ne_of_not_leading _ _ _ (by decide)
            · show ("Target node does not have input port '" ++ _ ++ "'") ≠ _
              rw [String.append_assoc]
              exact append_ne_of_not_leading _ _ _ (by decide)
        · by_cases hcompat : ¬ sp.is_compatible tp = true
          · rw [if_pos hcompat] at he2
            rcases List.mem_append.mp he2 with h1 | h2
            · exact hacc e2 h1
            · simp only [List.mem_singleton] at h2
              subst h2
              refine ⟨?_, ?_⟩
              · show ("Incompatible port types" : String) ≠ "Graph contains a cycle"
                decide
              · show ("Incompatible port types" : String) ≠ "Node is unreachable from Start"
                decide
          · rw [if_neg hcompat] at he2
            exact hacc e2 he2

/-- `_validate_cycles` emits at most one entry and always the same message. -/
lemma validateCycles_shape (g : NodeGraph) :
    (validateCycles g).1.length ≤ 1 ∧
    ∀ e ∈ (validateCycles g).1, e.message = "Graph contains a cycle" := by
  rw [validateCycles]
  match findCycle g with
  | some (some c) =>
    refine ⟨by simp, ?_⟩
    intro e he
    simp only [List.mem_singleton] at he
    subst he
    rfl
  | some none => exact ⟨by simp, by simp⟩
  | none => exact ⟨by simp, by simp⟩

/-- `_validate_end_node` emits no errors. -/
lemma validateEndNode_err (g : NodeGraph) : (validateEndNode g).1 = [] := by
  rw [validateEndNode]
  split <;> rfl

/-- `_validate_reachability` emits no errors. -/
lemma validateReachability_err (g : NodeGraph) : (validateReachability g).1 = [] := by
  rw [validateReachability]
  split <;> rfl

/-- `_validate_isolated_nodes` emits no errors. -/
lemma validateIsolatedNodes_err (g : NodeGraph) : (validateIsolatedNodes g).1 = [] := rfl

/-- The unreachable-node condition is never reported as an error: no error of
any validation component carries its message. -/
lemma validate_no_unreach_error (g : NodeGraph) :
    ∀ e ∈ (validate g).errors, e.message ≠ "Node is unreachable from Start" := by
  intro e he
  rw [validate] at he
  simp only [List.mem_append] at he
  rcases he with ((((((h1 | h2) | h3) | h4) | h5) | h6) | h7) | h8
  · exact (validateNodes_msgSafe g e h1).2
  · exact (validateEdges_msgSafe g e h2).2
  · exact (validateStartNode_msgSafe g e h3).2
  · rw [validateEndNode_err] at h4
    exact absurd h4 (by simp)
  · rw [(validateCycles_shape g).2 e h5]
    decide
  · rw [validateReachability_err] at h6
    exact absurd h6 (by simp)
  · exact (validateConnections_msgSafe g e h7).2
  · rw [validateIsolatedNodes_err] at h8
    exact absurd h8 (by simp)

/-- Only the cycle component can contribute cycle-message errors, and it
contributes at most one. -/
lemma validate_cycle_count (g : NodeGraph) :
    ((validate g).errors.filter
      (fun e => e.message == "Graph contains a cycle")).length ≤ 1 := by
  have hnil : ∀ (l : List VError), (∀ e ∈ l, msgSafe e) →
      l.filter (fun e => e.message == "Graph contains a cycle") = [] := by
    intro l hl
    refine List.filter_eq_nil_iff.mpr ?_
    intro a ha
    simpa using (hl a ha).1
  rw [validate]
  simp only [List.filter_append, List.length_append]
  rw [hnil _ (validateNodes_msgSafe g), hnil _ (validateEdges_msgSafe g),
    hnil _ (validateStartNode_msgSafe g), hnil _ (validateConnections_msgSafe g),
    validateEndNode_err, validateReachability_err, validateIsolatedNodes_err]
  have hlen : ((validateCycles g).1.filter
      (fun e => e.message == "Graph contains a cycle")).length ≤
      (validateCycles g).1.length := List.length_filter_le _ _
  have := (validateCycles_shape g).1
  simp only [List.filter_nil, List.length_nil]
  omega

/-- Entries of the cycle component appear in the full report's errors. -/
lemma mem_validate_of_cycles (g : NodeGraph) (e : VError)
    (he : e ∈ (validateCycles g).1) : e ∈ (validate g).errors := by
  rw [validate]
  simp only [List.mem_append]
  exact Or.inl (Or.inl (Or.inl (Or.inr he)))

/-- Warnings of the reachability component appear in the full report. -/
lemma mem_validate_of_reach (g : NodeGraph) (w : VError)
    (hw : w ∈ (validateReachability g).2) : w ∈ (validate g).warnings := by
  rw [validate]
  simp only [List.mem_append]
  exact Or.inl (Or.inl (Or.inr hw))

/-- C3, amended: a graph with a directed cycle through one of its node ids is
reported invalid with a cycle error whose detail renders a closed chain of at
least two ids connected by successor edges (ids that need not all name nodes
when edges dangle), and at most one cycle error is ever reported. -/
theorem cycle_reported (g : NodeGraph) (n : String)
    (hn : n ∈ g.nodes.map (fun nd => nd.id))
    (hcyc : Relation.TransGen (edgeRel g) n n) :
    (validate g).is_valid = false ∧
    (∃ err ∈ (validate g).errors, err.message = "Graph contains a cycle" ∧
      ∃ c, closedChain g c ∧
        err.details = some ("Cycle detected: " ++ String.intercalate (" -> ") c)) ∧
    ((validate g).errors.filter
      (fun e => e.message == "Graph contains a cycle")).length ≤ 1 := by
  obtain ⟨nd, hnd, hnid⟩ := List.mem_map.mp hn
  have hsome := findCycle_isSome g
  match hfc : findCycle g with
  | none =>
    rw [hfc] at hsome
    exact absurd hsome (by simp)
  | some none =>
    exfalso
    rw [← hnid] at hcyc
    exact findCycle_none_acyclic g hfc nd hnd hcyc
  | some (some c) =>
    have hchain := findCycle_sound g c hfc
    have hcycErr : (validateCycles g).1 = [mkError "Graph contains a cycle" none none
        (some ("Cycle detected: " ++ String.intercalate (" -> ") c))] := by
      rw [validateCycles, hfc]
    have hmem : mkError "Graph contains a cycle" none none
        (some ("Cycle detected: " ++ String.intercalate (" -> ") c)) ∈
        (validate g).errors :=
      mem_validate_of_cycles g _ (by rw [hcycErr]; exact List.mem_cons_self _ _)
    refine ⟨?_, ⟨_, hmem, rfl, c, hchain, rfl⟩, validate_cycle_count g⟩
    have hne : (validate g).errors ≠ [] := List.ne_nil_of_mem hmem
    rw [validate] at hne ⊢
    simp only []
    match hdata : (validateNodes g).1 ++ (validateEdges g).1 ++ (validateStartNode g).1 ++
        (validateEndNode g).1 ++ (validateCycles g).1 ++ (validateReachability g).1 ++
        (validateConnections g).1 ++ (validateIsolatedNodes g).1 with
    | [] => exact absurd hdata hne
    | a :: t => rfl

/-- C3 amended, witness: scenario C's graph has the node cycle h1 → h2 → h1
and the theorem applies to it. -/
theorem cycle_reported_witness :
    ("h1" ∈ graphCyc.nodes.map (fun nd => nd.id)) ∧
    Relation.TransGen (edgeRel graphCyc) "h1" "h1" ∧
    ((validate graphCyc).is_valid = false ∧
    (∃ err ∈ (validate graphCyc).errors, err.message = "Graph contains a cycle" ∧
      ∃ c, closedChain graphCyc c ∧
        err.details = some ("Cycle detected: " ++ String.intercalate (" -> ") c)) ∧
    ((validate graphCyc).errors.filter
      (fun e => e.message == "Graph contains a cycle")).length ≤ 1) := by
  have htg : Relation.TransGen (edgeRel graphCyc) "h1" "h1" := by
    refine Relation.TransGen.head (b := "h2") ?_ (Relation.TransGen.single ?_)
    · exact ⟨⟨"e2", "h1", "out", "h2", "in"⟩, by decide, rfl, rfl⟩
    · exact ⟨⟨"e3", "h2", "out", "h1", "in"⟩, by decide, rfl, rfl⟩
  exact ⟨by decide, htg, cycle_reported graphCyc "h1" (by decide) htg⟩

/-- `get_node` succeeds exactly on ids carried by some node. -/
lemma get_node_isSome_iff (g : NodeGraph) (x : String) :
    (g.get_node x).isSome ↔ ∃ nd ∈ g.nodes, nd.id = x := by
  rw [NodeGraph.get_node, List.find?_isSome]
  constructor
  · rintro ⟨nd, hnd, hp⟩
    exact ⟨nd, hnd, by simpa using hp⟩
  · rintro ⟨nd, hnd, hp⟩
    exact ⟨nd, hnd, by simpa using hp⟩

/-- A chain from `x` reaches the last element of the list. -/
lemma chain'_getLast?_reflTransGen (g : NodeGraph) :
    ∀ (l : List String) (x y : String), List.Chain' (edgeRel g) (x :: l) →
      (x :: l).getLast? = some y → Relation.ReflTransGen (edgeRel g) x y := by
  intro l
  induction l with
  | nil =>
    intro x y _ hl
    simp only [List.getLast?_singleton, Option.some.injEq] at hl
    subst hl
    exact Relation.ReflTransGen.refl
  | cons b t ih =>
    intro x y hch hl
    rw [List.chain'_cons] at hch
    rw [List.getLast?_cons_cons] at hl
    exact Relation.ReflTransGen.head hch.1 (ih b y hch.2 hl)

/-- A closed chain yields a directed cycle through its first id, which is some
edge's source. -/
lemma closedChain_transGen (g : NodeGraph) (c : List String) (h : closedChain g c) :
    ∃ x, (∃ e ∈ g.edges, e.source = x) ∧ Relation.TransGen (edgeRel g) x x := by
  obtain ⟨hlen, hchain, hclose⟩ := h
  match c, hlen with
  | a :: b :: rest, _ =>
    rw [List.chain'_cons] at hchain
    have hlast : (b :: rest).getLast? = some a := by
      have h1 : (a :: b :: rest).getLast? = some a := by
        rw [← hclose]
        rfl
      rwa [List.getLast?_cons_cons] at h1
    have hba : Relation.ReflTransGen (edgeRel g) b a :=
      chain'_getLast?_reflTransGen g rest b a hchain.2 hlast
    obtain ⟨e, he, hs, _⟩ := hchain.1
    exact ⟨a, ⟨e, he, hs⟩, Relation.TransGen.head'_iff.mpr ⟨b, hchain.1, hba⟩⟩

/-- The value the in-degree dictionary of `get_execution_order` holds for a
node id `x` once the nodes whose ids are listed in `resIds` have been emitted:
the number of edges into `x` whose source has not yet been emitted. -/
def pendInCount (g : NodeGraph) (resIds : List String) (x : String) : Nat :=
  (g.edges.filter (fun e => e.target == x && !(resIds.contains e.source))).length

/-- `u` occurs strictly before `v` in the list `l`. -/
def before (l : List String) (u v : String) : Prop :=
  ∃ l1 l2 l3, l = l1 ++ u :: l2 ++ v :: l3

/-- A pointwise-weaker filter keeps no more elements (generic version of
`length_filter_mono_pred`). -/
lemma length_filter_imp {α : Type} (l : List α) (p q : α → Bool)
    (h : ∀ x ∈ l, q x = true → p x = true) :
    (l.filter q).length ≤ (l.filter p).length := by
  induction l with
  | nil => simp
  | cons a rest ih =>
    have ih2 := ih (fun x hx => h x (List.mem_cons_of_mem _ hx))
    cases hq : q a
    · cases hp : p a <;> simp [List.filter_cons, hq, hp] <;> omega
    · have hp := h a (List.mem_cons_self a rest) hq
      simp [List.filter_cons, hq, hp]
      omega

/-- A filter's length splits along any second predicate. -/
lemma length_filter_split {α : Type} (l : List α) (p q : α → Bool) :
    (l.filter p).length =
      (l.filter (fun a => p a && q a)).length +
        (l.filter (fun a => p a && !q a)).length := by
  induction l with
  | nil => rfl
  | cons a rest ih =>
    by_cases hp : p a = true <;> by_cases hq : q a = true <;>
      simp [List.filter_cons, hp, hq, ih] <;> omega

/-- Appending to the right end preserves relative order. -/
lemma before_append {l : List String} {u v : String} (x : String)
    (h : before l u v) : before (l ++ [x]) u v := by
  obtain ⟨l1, l2, l3, h⟩ := h
  exact ⟨l1, l2, l3 ++ [x], by rw [h]; simp⟩

/-- Every existing element comes before a newly appended one. -/
lemma before_append_last {l : List String} {u : String} (x : String)
    (h : u ∈ l) : before (l ++ [x]) u x := by
  obtain ⟨s, t, rfl⟩ := List.append_of_mem h
  exact ⟨s, t, [], by simp⟩

/-- Index of the marked occurrence in a split list with a fresh head part. -/
lemma indexOf_append_cons (l1 : List String) (a : String) (l2 : List String)
    (h : a ∉ l1) : (l1 ++ a :: l2).indexOf a = l1.length := by
  induction l1 with
  | nil => simp [List.indexOf_cons_self]
  | cons b rest ih =>
    have hb : a ≠ b := fun hab => h (hab ▸ List.mem_cons_self b rest)
    have hrest : a ∉ rest := fun hm => h (List.mem_cons_of_mem b hm)
    rw [List.cons_append, List.indexOf_cons_ne _ (Ne.symm hb), ih hrest,
      List.length_cons]

/-- In a duplicate-free list, occurring earlier means a smaller index. -/
lemma before_indexOf {l : List String} (hl : l.Nodup) {u v : String}
    (h : before l u v) : l.indexOf u < l.indexOf v := by
  obtain ⟨l1, l2, l3, rfl⟩ := h
  obtain ⟨hleft, -, hdisj⟩ := List.nodup_append.mp hl
  obtain ⟨-, -, hd1⟩ := List.nodup_append.mp hleft
  have hu : u ∉ l1 := fun hm => hd1 hm (List.mem_cons_self u l2)
  have hv : v ∉ l1 ++ u :: l2 := fun hm => hdisj hm (List.mem_cons_self v l3)
  have h2 : ((l1 ++ u :: l2) ++ v :: l3).indexOf v = (l1 ++ u :: l2).length :=
    indexOf_append_cons (l1 ++ u :: l2) v l3 hv
  have h1 : ((l1 ++ u :: l2) ++ v :: l3).indexOf u = l1.length := by
    have hre : (l1 ++ u :: l2) ++ v :: l3 = l1 ++ u :: (l2 ++ v :: l3) := by simp
    rw [hre]
    exact indexOf_append_cons l1 u (l2 ++ v :: l3) hu
  rw [h1, h2, List.length_append, List.length_cons]
  omega

/-- The Start-first stable sort permutes the queue. -/
lemma sortStartFirst_perm (l : List Node) : (sortStartFirst l).Perm l := by
  rw [sortStartFirst]
  have hco : ∀ n ∈ l, (decide (¬ n.type = "Start")) = !(n.type == "Start") := by
    intro n _
    by_cases h : n.type = "Start" <;> simp [h]
  rw [List.filter_congr hco]
  exact List.filter_append_perm _ l

/-- Multiplicity of a target in a node's successor list, as an edge count. -/
lemma count_succ_eq (g : NodeGraph) (nid x : String) :
    (g.get_successors nid).count x =
      (g.edges.filter (fun e => e.target == x && e.source == nid)).length := by
  rw [NodeGraph.get_successors, NodeGraph.get_outgoing_edges, List.count,
    List.countP_map, List.countP_filter, List.countP_eq_length_filter]
  rfl

/-- Emitting one fresh id removes exactly its out-edges into `x` from the
pending in-edge count of `x`. -/
lemma pendInCount_append (g : NodeGraph) (resIds : List String) (y : String)
    (hy : resIds.contains y = false) (x : String) :
    pendInCount g (resIds ++ [y]) x +
        (g.edges.filter (fun e => e.target == x && e.source == y)).length =
      pendInCount g resIds x := by
  have hyn : y ∉ resIds := by
    intro hm
    rw [List.contains_eq_any_beq] at hy
    have : resIds.any (fun a => y == a) = true := List.any_eq_true.mpr ⟨y, hm, by simp⟩
    rw [this] at hy
    exact Bool.noConfusion hy
  rw [pendInCount, pendInCount,
    length_filter_split g.edges (fun e => e.target == x && !(resIds.contains e.source))
      (fun e => !(e.source == y))]
  have e1 : g.edges.filter
        (fun e => (e.target == x && !(resIds.contains e.source)) && !(e.source == y)) =
      g.edges.filter (fun e => e.target == x && !((resIds ++ [y]).contains e.source)) := by
    apply List.filter_congr
    intro e _
    by_cases hs : e.source = y
    · subst hs
      by_cases ht : e.target = x <;> simp [ht, hyn, List.mem_append]
    · by_cases ht : e.target = x <;> by_cases hc : e.source ∈ resIds <;>
        simp [ht, hs, hc, List.mem_append]
  have e2 : g.edges.filter
        (fun e => (e.target == x && !(resIds.contains e.source)) && !(!(e.source == y))) =
      g.edges.filter (fun e => e.target == x && e.source == y) := by
    apply List.filter_congr
    intro e _
    by_cases hs : e.source = y
    · subst hs
      by_cases ht : e.target = x <;> simp [ht, hyn]
    · by_cases ht : e.target = x <;> by_cases hc : e.source ∈ resIds <;>
        simp [ht, hs, hc]
  rw [e1, e2]

/-- Folding the edge-increment step only shifts existing keys, by the number
of processed edges aimed at them. -/
lemma initInDeg_foldl (x : String) :
    ∀ (edges : List Edge) (m : String → Option Int),
      (edges.foldl
        (fun m e =>
          match m e.target with
          | some k => fun i => if i = e.target then some (k + 1) else m i
          | none => m) m) x =
      (m x).map (fun k => k + ((edges.filter (fun e => e.target == x)).length : Int)) := by
  intro edges
  induction edges with
  | nil =>
    intro m
    rw [List.foldl_nil, List.filter_nil]
    cases hmx : m x <;> simp [hmx]
  | cons e rest ih =>
    intro m
    simp only [List.foldl_cons]
    by_cases hx : x = e.target
    · subst hx
      cases hme : m e.target with
      | none =>
        simp only []
        rw [ih m, hme]
        rfl
      | some k =>
        have hfc : (List.filter (fun e2 => e2.target == e.target) (e :: rest)).length =
            (List.filter (fun e2 => e2.target == e.target) rest).length + 1 := by
          rw [List.filter_cons, if_pos (by simp)]
          simp
        simp only []
        rw [ih (fun i => if i = e.target then some (k + 1) else m i), hfc]
        rw [if_pos rfl, Option.map_some', Option.map_some']
        simp only [Option.some.injEq]
        push_cast
        ring
    · have hstep : (match m e.target with
          | some k => fun i => if i = e.target then some (k + 1) else m i
          | none => m) x = m x := by
        cases hme : m e.target
        · rfl
        · exact if_neg hx
      rw [ih _, hstep, List.filter_cons, if_neg (by simpa using fun h => hx h.symm)]

/-- The initial in-degree table: zero plus one per incoming edge for a known
node id, absent for any other string. -/
lemma initInDeg_spec (g : NodeGraph) (x : String) :
    initInDeg g x =
      if g.nodes.any (fun n => n.id == x) then
        some (((g.edges.filter (fun e => e.target == x)).length : Nat) : Int)
      else none := by
  rw [initInDeg, initInDeg_foldl]
  by_cases hx : g.nodes.any (fun n => n.id == x) = true
  · rw [if_pos hx, if_pos hx]
    simp
  · rw [if_neg hx, if_neg hx]
    rfl

/-- A duplicate-free list never outgrows a superset. -/
lemma nodup_subset_length {α : Type} [DecidableEq α] {l l2 : List α}
    (h : l.Nodup) (hsub : ∀ a ∈ l, a ∈ l2) : l.length ≤ l2.length :=
  calc l.length = l.toFinset.card := (List.toFinset_card_of_nodup h).symm
    _ ≤ l2.toFinset.card := Finset.card_le_card (fun a ha => by
        rw [List.mem_toFinset] at ha ⊢
        exact hsub a ha)
    _ ≤ l2.length := l2.toFinset_card_le

/-- What one pass of the successor loop of `get_execution_order` does, when
every listed successor is a known key whose in-degree is at least its
multiplicity in the list: it cannot raise, it decrements each successor's
entry once per occurrence, and it enqueues exactly the nodes whose entry
thereby reaches zero, each at most once. -/
lemma kahnStep_ok (g : NodeGraph) :
    ∀ (succs : List String) (queue : List Node) (inDeg : String → Option Int),
      (∀ s ∈ succs, ∃ k : Nat, inDeg s = some ((k : Nat) : Int) ∧ succs.count s ≤ k ∧
        (g.get_node s).isSome) →
      ∃ (newNodes : List Node) (inDeg2 : String → Option Int),
        kahnStep g succs queue inDeg = Except.ok (queue ++ newNodes, inDeg2) ∧
        (∀ x, x ∉ succs → inDeg2 x = inDeg x) ∧
        (∀ x ∈ succs, inDeg2 x = (inDeg x).map (fun v => v - ((succs.count x : Nat) : Int))) ∧
        (∀ nd ∈ newNodes, g.get_node nd.id = some nd ∧ nd.id ∈ succs ∧
          inDeg nd.id = some ((succs.count nd.id : Nat) : Int)) ∧
        (newNodes.map Node.id).Nodup ∧
        (∀ x ∈ succs, inDeg x = some ((succs.count x : Nat) : Int) →
          ∃ nd ∈ newNodes, nd.id = x) := by
  intro succs
  induction succs with
  | nil =>
    intro queue inDeg _
    refine ⟨[], inDeg, ?_, fun x _ => rfl, ?_, ?_, ?_, ?_⟩
    · rw [kahnStep, List.append_nil]
    · intro x hx
      exact absurd hx (List.not_mem_nil x)
    · intro nd hnd
      exact absurd hnd (List.not_mem_nil nd)
    · simp
    · intro x hx
      exact absurd hx (List.not_mem_nil x)
  | cons s rest ih =>
    intro queue inDeg h
    obtain ⟨k, hks, hcnt, hsome⟩ := h s (List.mem_cons_self s rest)
    have hk1 : 1 ≤ k := le_trans (List.one_le_count_iff.mpr (List.mem_cons_self s rest)) hcnt
    rw [kahnStep, hks]
    simp only []
    by_cases hkone : k = 1
    · have hsrest : s ∉ rest := by
        apply List.count_eq_zero.mp
        have hcs : (s :: rest).count s = rest.count s + 1 := List.count_cons_self s rest
        omega
      rw [if_pos (by omega : ((k : Nat) : Int) - 1 = 0)]
      obtain ⟨nd, hnd⟩ := Option.isSome_iff_exists.mp hsome
      have hndid : nd.id = s := by simpa using List.find?_some hnd
      rw [hnd]
      simp only []
      have hih : ∀ t ∈ rest, ∃ k2 : Nat,
          (fun x => if x = s then some (((k : Nat) : Int) - 1) else inDeg x) t =
            some ((k2 : Nat) : Int) ∧
          rest.count t ≤ k2 ∧ (g.get_node t).isSome := by
        intro t ht
        have hts : ¬ t = s := fun he => hsrest (he ▸ ht)
        obtain ⟨k2, hk2, hc2, hs2⟩ := h t (List.mem_cons_of_mem s ht)
        refine ⟨k2, ?_, ?_, hs2⟩
        · simp only [if_neg hts]
          exact hk2
        · have hcc : (s :: rest).count t = rest.count t := by
            simp [List.count_cons, hts]
          omega
      obtain ⟨newNodes2, inDeg2, hrun, hnot, hmem, hprop, hnodup, hcomp⟩ :=
        ih (queue ++ [nd]) _ hih
      refine ⟨nd :: newNodes2, inDeg2, ?_, ?_, ?_, ?_, ?_, ?_⟩
      · rw [hrun]
        simp [List.append_assoc]
      · intro x hx
        have hxs : ¬ x = s := fun he => hx (he ▸ List.mem_cons_self s rest)
        have hxr : x ∉ rest := fun hm => hx (List.mem_cons_of_mem s hm)
        rw [hnot x hxr]
        simp only [if_neg hxs]
      · intro x hx
        rcases List.mem_cons.mp hx with rfl | hxr
        · rw [hnot x hsrest]
          simp only [if_pos rfl]
          rw [hks, Option.map_some']
          have hone : (x :: rest).count x = 1 := by
            have h0 : rest.count x = 0 := List.count_eq_zero.mpr hsrest
            rw [List.count_cons_self, h0]
          rw [hone]
          simp
        · have hxs : ¬ x = s := fun he => hsrest (he ▸ hxr)
          have hres := hmem x hxr
          simp only [if_neg hxs] at hres
          have hcc : (s :: rest).count x = rest.count x := by
            simp [List.count_cons, hxs]
          rw [hcc]
          exact hres
      · intro nd2 hnd2
        rcases List.mem_cons.mp hnd2 with rfl | hmm2
        · refine ⟨by rw [hndid]; exact hnd, by rw [hndid]; exact List.mem_cons_self s rest, ?_⟩
          rw [hndid, hks]
          have hone : (s :: rest).count s = 1 := by
            have h0 : rest.count s = 0 := List.count_eq_zero.mpr hsrest
            rw [List.count_cons_self, h0]
          rw [hone, hkone]
        · obtain ⟨hg, hr, hv⟩ := hprop nd2 hmm2
          have hxs : ¬ nd2.id = s := fun he => hsrest (he ▸ hr)
          refine ⟨hg, List.mem_cons_of_mem s hr, ?_⟩
          simp only [if_neg hxs] at hv
          have hcc : (s :: rest).count nd2.id = rest.count nd2.id := by
            simp [List.count_cons, hxs]
          rw [hcc]
          exact hv
      · rw [List.map_cons]
        apply List.nodup_cons.mpr
        refine ⟨?_, hnodup⟩
        intro hm
        obtain ⟨nd2, hnd2, hid⟩ := List.mem_map.mp hm
        have hr := (hprop nd2 hnd2).2.1
        rw [hid, hndid] at hr
        exact hsrest hr
      · intro x hx hval
        rcases List.mem_cons.mp hx with rfl | hxr
        · exact ⟨nd, List.mem_cons_self nd newNodes2, hndid⟩
        · have hxs : ¬ x = s := fun he => hsrest (he ▸ hxr)
          have hcc : (s :: rest).count x = rest.count x := by
            simp [List.count_cons, hxs]
          rw [hcc] at hval
          have hval2 : (fun y => if y = s then some (((k : Nat) : Int) - 1) else inDeg y) x =
              some ((rest.count x : Nat) : Int) := by
            simp only [if_neg hxs]
            exact hval
          obtain ⟨nd2, hnd2, hid⟩ := hcomp x hxr hval2
          exact ⟨nd2, List.mem_cons_of_mem nd hnd2, hid⟩
    · rw [if_neg (by omega : ¬ ((k : Nat) : Int) - 1 = 0)]
      have hih : ∀ t ∈ rest, ∃ k2 : Nat,
          (fun x => if x = s then some (((k : Nat) : Int) - 1) else inDeg x) t =
            some ((k2 : Nat) : Int) ∧
          rest.count t ≤ k2 ∧ (g.get_node t).isSome := by
        intro t ht
        by_cases hts : t = s
        · subst hts
          refine ⟨k - 1, ?_, ?_, hsome⟩
          · have hc1 : (((k - 1 : Nat)) : Int) = ((k : Nat) : Int) - 1 := by omega
            rw [hc1]
            simp
          · have hc2 : rest.count t + 1 ≤ k := by
              rw [← List.count_cons_self t rest]
              exact hcnt
            omega
        · obtain ⟨k2, hk2, hc2, hs2⟩ := h t (List.mem_cons_of_mem s ht)
          refine ⟨k2, ?_, ?_, hs2⟩
          · simp only [if_neg hts]
            exact hk2
          · have hcc : (s :: rest).count t = rest.count t := by
              simp [List.count_cons, hts]
            omega
      obtain ⟨newNodes2, inDeg2, hrun, hnot, hmem, hprop, hnodup, hcomp⟩ :=
        ih queue _ hih
      refine ⟨newNodes2, inDeg2, hrun, ?_, ?_, ?_, hnodup, ?_⟩
      · intro x hx
        have hxs : ¬ x = s := fun he => hx (he ▸ List.mem_cons_self s rest)
        have hxr : x ∉ rest := fun hm => hx (List.mem_cons_of_mem s hm)
        rw [hnot x hxr]
        simp only [if_neg hxs]
      · intro x hx
        by_cases hxs : x = s
        · subst hxs
          by_cases hsr : x ∈ rest
          · have hres := hmem x hsr
            simp at hres
            rw [hres, hks]
            have hcc : (x :: rest).count x = rest.count x + 1 := List.count_cons_self x rest
            rw [hcc, Option.map_some']
            simp only [Option.some.injEq]
            push_cast
            ring
          · have hres := hnot x hsr
            simp only [if_pos rfl] at hres
            rw [hres, hks, Option.map_some']
            have hcc : (x :: rest).count x = 1 := by
              have h0 : rest.count x = 0 := List.count_eq_zero.mpr hsr
              rw [List.count_cons_self, h0]
            rw [hcc]
            simp
        · have hxr : x ∈ rest := by
            rcases List.mem_cons.mp hx with he | hxr
            · exact absurd he hxs
            · exact hxr
          have hres := hmem x hxr
          simp only [if_neg hxs] at hres
          have hcc : (s :: rest).count x = rest.count x := by
            simp [List.count_cons, hxs]
          rw [hcc]
          exact hres
      · intro nd2 hnd2
        obtain ⟨hg, hr, hv⟩ := hprop nd2 hnd2
        refine ⟨hg, List.mem_cons_of_mem s hr, ?_⟩
        by_cases hxs : nd2.id = s
        · rw [hxs] at hv ⊢
          simp only [if_pos rfl] at hv
          rw [hks]
          have hkc : ((k : Nat) : Int) - 1 = ((rest.count s : Nat) : Int) := by
            injection hv
          have hcc : (s :: rest).count s = rest.count s + 1 := List.count_cons_self s rest
          rw [hcc]
          have hfin : ((k : Nat) : Int) = ((rest.count s + 1 : Nat) : Int) := by
            push_cast
            push_cast at hkc
            omega
          rw [hfin]
        · simp only [if_neg hxs] at hv
          have hcc : (s :: rest).count nd2.id = rest.count nd2.id := by
            simp [List.count_cons, hxs]
          rw [hcc]
          exact hv
      · intro x hx hval
        by_cases hxs : x = s
        · subst hxs
          rw [hks] at hval
          have hkc : k = (x :: rest).count x := by
            injection hval with hval2
            exact_mod_cast hval2
          have hxr : x ∈ rest := by
            by_contra hxr
            have h0 : rest.count x = 0 := List.count_eq_zero.mpr hxr
            rw [List.count_cons_self, h0] at hkc
            exact hkone (by omega)
          apply hcomp x hxr
          have hrc : rest.count x + 1 = k := by
            rw [List.count_cons_self] at hkc
            omega
          have hcast : ((k : Nat) : Int) - 1 = ((rest.count x : Nat) : Int) := by omega
          rw [hcast]
          simp
        · have hxr : x ∈ rest := by
            rcases List.mem_cons.mp hx with he | hxr
            · exact absurd he hxs
            · exact hxr
          have hcc : (s :: rest).count x = rest.count x := by
            simp [List.count_cons, hxs]
          rw [hcc] at hval
          apply hcomp x hxr
          simp only [if_neg hxs]
          exact hval

/-- If the queue has drained while some node is still unemitted, the pending
in-degree bound forces an infinite backwards walk among unemitted nodes, and
hence a directed cycle; so an acyclic graph is fully emitted on exit. -/
lemma kahnExit (g : NodeGraph)
    (hnd : (g.nodes.map Node.id).Nodup)
    (hend : ∀ e ∈ g.edges, (g.get_node e.source).isSome ∧ (g.get_node e.target).isSome)
    (hacyc : ∀ x, ¬ Relation.TransGen (edgeRel g) x x)
    (result : List Node)
    (h1 : ∀ n ∈ result, n ∈ g.nodes)
    (h6 : ∀ n ∈ g.nodes, n.id ∉ result.map Node.id →
      1 ≤ pendInCount g (result.map Node.id) n.id) :
    ∀ n ∈ g.nodes, n ∈ result := by
  intro n hn
  by_contra hnr
  have hnid : n.id ∉ result.map Node.id := by
    intro hm
    obtain ⟨m, hm2, hmid⟩ := List.mem_map.mp hm
    have hmg := h1 m hm2
    have hmn : m = n := List.inj_on_of_nodup_map hnd hmg hn hmid
    exact hnr (hmn ▸ hm2)
  have hpred : ∀ p : Node, (p ∈ g.nodes ∧ p.id ∉ result.map Node.id) →
      ∃ m2 : Node, (m2 ∈ g.nodes ∧ m2.id ∉ result.map Node.id) ∧
        edgeRel g m2.id p.id := by
    rintro p ⟨hp, hpid⟩
    have hge := h6 p hp hpid
    rw [pendInCount] at hge
    obtain ⟨e, he, hpe⟩ : ∃ e ∈ g.edges,
        (e.target == p.id && !((result.map Node.id).contains e.source)) = true := by
      match hl : g.edges.filter
          (fun e => e.target == p.id && !((result.map Node.id).contains e.source)) with
      | [] => rw [hl] at hge; simp at hge
      | e :: tl =>
        have hmf : e ∈ g.edges.filter
            (fun e => e.target == p.id && !((result.map Node.id).contains e.source)) := by
          rw [hl]
          exact List.mem_cons_self e tl
        rw [List.mem_filter] at hmf
        exact ⟨e, hmf.1, hmf.2⟩
    rw [Bool.and_eq_true, beq_iff_eq] at hpe
    obtain ⟨hpt, hpc⟩ := hpe
    have hsrc : e.source ∉ result.map Node.id := by simpa using hpc
    obtain ⟨m2, hm2g, hm2id⟩ := (get_node_isSome_iff g e.source).mp (hend e he).1
    refine ⟨m2, ⟨hm2g, by rw [hm2id]; exact hsrc⟩, ⟨e, he, hm2id.symm, hpt⟩⟩
  let seq : Nat → {p : Node // p ∈ g.nodes ∧ p.id ∉ result.map Node.id} := fun j =>
    Nat.rec ⟨n, hn, hnid⟩
      (fun _ prev => ⟨(hpred prev.1 prev.2).choose, (hpred prev.1 prev.2).choose_spec.1⟩) j
  have hstep : ∀ j, edgeRel g ((seq (j + 1)).1.id) ((seq j).1.id) :=
    fun j => (hpred (seq j).1 (seq j).2).choose_spec.2
  have hchain : ∀ d j, Relation.TransGen (edgeRel g) ((seq (j + d + 1)).1.id)
      ((seq j).1.id) := by
    intro d
    induction d with
    | zero => exact fun j => Relation.TransGen.single (hstep j)
    | succ d2 ihd =>
      intro j
      have harith : j + (d2 + 1) + 1 = (j + d2 + 1) + 1 := by omega
      rw [harith]
      exact Relation.TransGen.head (hstep (j + d2 + 1)) (ihd j)
  have hmaps : ∀ i : Fin (g.nodes.length + 1),
      (seq i.1).1.id ∈ (g.nodes.map Node.id).toFinset := by
    intro i
    rw [List.mem_toFinset]
    exact List.mem_map.mpr ⟨(seq i.1).1, (seq i.1).2.1, rfl⟩
  have hcard : (g.nodes.map Node.id).toFinset.card <
      (Finset.univ : Finset (Fin (g.nodes.length + 1))).card := by
    rw [Finset.card_univ, Fintype.card_fin]
    have hle := (g.nodes.map Node.id).toFinset_card_le
    rw [List.length_map] at hle
    omega
  obtain ⟨i, -, j, -, hij, heq⟩ :=
    Finset.exists_ne_map_eq_of_card_lt_of_maps_to hcard (fun i _ => hmaps i)
  rcases hij.lt_or_lt with hlt | hlt
  · have hltv : (i : Nat) < (j : Nat) := hlt
    have harith : (i : Nat) + ((j : Nat) - (i : Nat) - 1) + 1 = (j : Nat) := by omega
    have hc := hchain ((j : Nat) - (i : Nat) - 1) (i : Nat)
    rw [harith] at hc
    rw [heq] at hc
    exact hacyc _ hc
  · have hltv : (j : Nat) < (i : Nat) := hlt
    have harith : (j : Nat) + ((i : Nat) - (j : Nat) - 1) + 1 = (i : Nat) := by omega
    have hc := hchain ((i : Nat) - (j : Nat) - 1) (j : Nat)
    rw [harith] at hc
    rw [← heq] at hc
    exact hacyc _ hc

/-- The while loop of `get_execution_order`, run from any state satisfying
its invariants in a duplicate-free, endpoint-closed, acyclic graph: it
succeeds, emits every node exactly once, and emits every edge's source before
the edge's target. -/
lemma kahnLoop_ok (g : NodeGraph)
    (hnd : (g.nodes.map Node.id).Nodup)
    (hend : ∀ e ∈ g.edges, (g.get_node e.source).isSome ∧ (g.get_node e.target).isSome)
    (hacyc : ∀ x, ¬ Relation.TransGen (edgeRel g) x x) :
    ∀ (fuel : Nat) (queue result : List Node) (inDeg : String → Option Int),
      (∀ n ∈ result, n ∈ g.nodes) →
      (∀ q ∈ queue, q ∈ g.nodes) →
      (((result ++ queue).map Node.id).Nodup) →
      (∀ n ∈ g.nodes, inDeg n.id =
        some ((pendInCount g (result.map Node.id) n.id : Nat) : Int)) →
      (∀ q ∈ queue, pendInCount g (result.map Node.id) q.id = 0) →
      (∀ r ∈ result, pendInCount g (result.map Node.id) r.id = 0) →
      (∀ n ∈ g.nodes, n.id ∉ result.map Node.id → n.id ∉ queue.map Node.id →
        1 ≤ pendInCount g (result.map Node.id) n.id) →
      (∀ e ∈ g.edges, e.target ∈ result.map Node.id →
        before (result.map Node.id) e.source e.target) →
      g.nodes.length + 1 ≤ result.length + fuel →
      ∃ order, kahnLoop g fuel queue inDeg result = Except.ok order ∧
        (∀ n, n ∈ order ↔ n ∈ g.nodes) ∧
        ((order.map Node.id).Nodup) ∧
        (∀ e ∈ g.edges, before (order.map Node.id) e.source e.target) ∧
        (∃ tail, order = result ++ tail) := by
  intro fuel
  induction fuel with
  | zero =>
    intro queue result inDeg h1 h2 h3 h4 h5 h9 h6 h7 hfuel
    exfalso
    have hrnodup : (result.map Node.id).Nodup := by
      have hsub : (result.map Node.id).Sublist ((result ++ queue).map Node.id) := by
        rw [List.map_append]
        exact List.sublist_append_left _ _
      exact h3.sublist hsub
    have hsubset : ∀ a ∈ result.map Node.id, a ∈ g.nodes.map Node.id := by
      intro a ha
      obtain ⟨m, hm, hid⟩ := List.mem_map.mp ha
      exact List.mem_map.mpr ⟨m, h1 m hm, hid⟩
    have hle := nodup_subset_length hrnodup hsubset
    rw [List.length_map, List.length_map] at hle
    omega
  | succ fuel2 ih =>
    intro queue result inDeg h1 h2 h3 h4 h5 h9 h6 h7 hfuel
    cases hsq : sortStartFirst queue with
    | nil =>
      have hqnil : ∀ q : Node, q ∉ queue := by
        intro q hq
        have hmem := (sortStartFirst_perm queue).symm.subset hq
        rw [hsq] at hmem
        exact absurd hmem (List.not_mem_nil q)
      have hcov : ∀ n ∈ g.nodes, n ∈ result := by
        apply kahnExit g hnd hend hacyc result h1
        intro n hn hnid
        apply h6 n hn hnid
        intro hm
        obtain ⟨q, hq, -⟩ := List.mem_map.mp hm
        exact hqnil q hq
      have hrnodup : (result.map Node.id).Nodup := by
        have hsub : (result.map Node.id).Sublist ((result ++ queue).map Node.id) := by
          rw [List.map_append]
          exact List.sublist_append_left _ _
        exact h3.sublist hsub
      have hlen : result.length = g.nodes.length := by
        have hle1 : result.length ≤ g.nodes.length := by
          have hsubset : ∀ a ∈ result.map Node.id, a ∈ g.nodes.map Node.id := by
            intro a ha
            obtain ⟨m, hm, hid⟩ := List.mem_map.mp ha
            exact List.mem_map.mpr ⟨m, h1 m hm, hid⟩
          have hle := nodup_subset_length hrnodup hsubset
          rw [List.length_map, List.length_map] at hle
          exact hle
        have hle2 : g.nodes.length ≤ result.length := by
          have hsubset : ∀ a ∈ g.nodes.map Node.id, a ∈ result.map Node.id := by
            intro a ha
            obtain ⟨m, hm, hid⟩ := List.mem_map.mp ha
            exact List.mem_map.mpr ⟨m, hcov m hm, hid⟩
          have hle := nodup_subset_length hnd hsubset
          rw [List.length_map, List.length_map] at hle
          exact hle
        omega
      refine ⟨result, ?_, ?_, hrnodup, ?_, ⟨[], by simp⟩⟩
      · rw [kahnLoop, hsq]
        simp only []
        rw [if_neg (by omega : ¬ result.length ≠ g.nodes.length)]
      · intro n
        exact ⟨fun hm => h1 n hm, fun hm => hcov n hm⟩
      · intro e he
        have htg : e.target ∈ result.map Node.id := by
          obtain ⟨m, hm, hmid⟩ := (get_node_isSome_iff g e.target).mp (hend e he).2
          exact List.mem_map.mpr ⟨m, hcov m hm, hmid⟩
        exact h7 e he htg
    | cons node rest =>
      have hnodeq : node ∈ queue := (sortStartFirst_perm queue).subset
        (by rw [hsq]; exact List.mem_cons_self node rest)
      have hrestq : ∀ t ∈ rest, t ∈ queue := fun t ht =>
        (sortStartFirst_perm queue).subset
          (by rw [hsq]; exact List.mem_cons_of_mem node ht)
      have hidperm : (queue.map Node.id).Perm (node.id :: rest.map Node.id) := by
        have hp := (sortStartFirst_perm queue).symm.map Node.id
        rw [hsq] at hp
        simpa using hp
      have hnodup2 : ((result.map Node.id) ++ (node.id :: rest.map Node.id)).Nodup := by
        have hperm : ((result ++ queue).map Node.id).Perm
            ((result.map Node.id) ++ (node.id :: rest.map Node.id)) := by
          rw [List.map_append]
          exact List.Perm.append_left _ hidperm
        exact hperm.nodup h3
      have hnoderes : node.id ∉ result.map Node.id := by
        obtain ⟨-, -, hdisj⟩ := List.nodup_append.mp hnodup2
        exact fun hm => hdisj hm (List.mem_cons_self _ _)
      have hcontains : (result.map Node.id).contains node.id = false := by
        simp [hnoderes]
      have hsuccs : ∀ s ∈ g.get_successors node.id, ∃ k : Nat,
          inDeg s = some ((k : Nat) : Int) ∧ (g.get_successors node.id).count s ≤ k ∧
          (g.get_node s).isSome := by
        intro s hs
        obtain ⟨e, he, hes, het⟩ := (mem_successors_iff g node.id s).mp hs
        have hsome : (g.get_node s).isSome := by
          rw [← het]
          exact (hend e he).2
        obtain ⟨m, hm, hmid⟩ := (get_node_isSome_iff g s).mp hsome
        refine ⟨pendInCount g (result.map Node.id) s, ?_, ?_, hsome⟩
        · have hv := h4 m hm
          rw [hmid] at hv
          exact hv
        · rw [count_succ_eq, pendInCount]
          apply length_filter_imp
          intro e2 he2 hq
          rw [Bool.and_eq_true, beq_iff_eq, beq_iff_eq] at hq
          rw [Bool.and_eq_true, beq_iff_eq]
          refine ⟨hq.1, ?_⟩
          rw [hq.2, hcontains]
          rfl
      obtain ⟨newNodes, inDeg2, hrun, hnot, hmemS, hprop, hnodupN, hcomp⟩ :=
        kahnStep_ok g (g.get_successors node.id) rest inDeg hsuccs
      have hres2 : ((result ++ [node]).map Node.id) = result.map Node.id ++ [node.id] := by
        simp
      have hpendstep : ∀ x, pendInCount g (result.map Node.id ++ [node.id]) x +
          (g.get_successors node.id).count x = pendInCount g (result.map Node.id) x := by
        intro x
        rw [count_succ_eq]
        exact pendInCount_append g _ node.id hcontains x
      have hnewg : ∀ nd ∈ newNodes, nd ∈ g.nodes := by
        intro nd hx
        have hg2 := (hprop nd hx).1
        rw [NodeGraph.get_node] at hg2
        exact List.mem_of_find?_eq_some hg2
      have hnewpend : ∀ nd ∈ newNodes,
          (g.get_successors node.id).count nd.id =
            pendInCount g (result.map Node.id) nd.id := by
        intro nd hx
        have hcnt := (hprop nd hx).2.2
        have hpd := h4 nd (hnewg nd hx)
        rw [hcnt] at hpd
        injection hpd with h2
        exact_mod_cast h2
      have hnew1 : ∀ nd ∈ newNodes, 1 ≤ pendInCount g (result.map Node.id) nd.id := by
        intro nd hx
        have hc1 : 1 ≤ (g.get_successors node.id).count nd.id :=
          List.one_le_count_iff.mpr (hprop nd hx).2.1
        have := hnewpend nd hx
        omega
      have hnewdisj : ∀ a, (a ∈ result.map Node.id ∨ a = node.id ∨ a ∈ rest.map Node.id) →
          a ∉ newNodes.map Node.id := by
        intro a ha hmem2
        obtain ⟨nd, hndm, hndid⟩ := List.mem_map.mp hmem2
        have hge := hnew1 nd hndm
        rw [hndid] at hge
        rcases ha with h1a | h2a | h3a
        · obtain ⟨r, hr, hrid⟩ := List.mem_map.mp h1a
          have h0 := h9 r hr
          rw [hrid] at h0
          omega
        · have h0 := h5 node hnodeq
          rw [h2a] at hge
          omega
        · obtain ⟨t, htm, htid⟩ := List.mem_map.mp h3a
          have h0 := h5 t (hrestq t htm)
          rw [htid] at h0
          omega
      have hi1 : ∀ n ∈ result ++ [node], n ∈ g.nodes := by
        intro n hn
        rcases List.mem_append.mp hn with h1a | h2a
        · exact h1 n h1a
        · have he2 : n = node := by simpa using h2a
          rw [he2]
          exact h2 node hnodeq
      have hi2 : ∀ q ∈ rest ++ newNodes, q ∈ g.nodes := by
        intro q hq
        rcases List.mem_append.mp hq with h1a | h2a
        · exact h2 q (hrestq q h1a)
        · exact hnewg q h2a
      have hbase : ((result.map Node.id ++ [node.id]) ++ rest.map Node.id).Nodup := by
        have hsh : (result.map Node.id ++ [node.id]) ++ rest.map Node.id =
            result.map Node.id ++ node.id :: rest.map Node.id := by
          simp
        rw [hsh]
        exact hnodup2
      have hi3 : (((result ++ [node]) ++ (rest ++ newNodes)).map Node.id).Nodup := by
        have hshape : (((result ++ [node]) ++ (rest ++ newNodes)).map Node.id) =
            ((result.map Node.id ++ [node.id]) ++ rest.map Node.id) ++
              newNodes.map Node.id := by
          simp
        rw [hshape]
        apply List.nodup_append.mpr
        refine ⟨hbase, hnodupN, ?_⟩
        intro a ha hb
        apply hnewdisj a ?_ hb
        rcases List.mem_append.mp ha with h1a | h2a
        · rcases List.mem_append.mp h1a with h3a | h4a
          · exact Or.inl h3a
          · exact Or.inr (Or.inl (by simpa using h4a))
        · exact Or.inr (Or.inr h2a)
      have hi4 : ∀ n ∈ g.nodes, inDeg2 n.id =
          some ((pendInCount g ((result ++ [node]).map Node.id) n.id : Nat) : Int) := by
        intro n hn
        rw [hres2]
        by_cases hmem2 : n.id ∈ g.get_successors node.id
        · rw [hmemS n.id hmem2, h4 n hn, Option.map_some']
          have hps := hpendstep n.id
          simp only [Option.some.injEq]
          omega
        · rw [hnot n.id hmem2, h4 n hn]
          have hc0 : (g.get_successors node.id).count n.id = 0 :=
            List.count_eq_zero.mpr hmem2
          have hps := hpendstep n.id
          rw [hc0] at hps
          simp only [Option.some.injEq]
          omega
      have hi5 : ∀ q ∈ rest ++ newNodes,
          pendInCount g ((result ++ [node]).map Node.id) q.id = 0 := by
        intro q hq
        rw [hres2]
        have hps := hpendstep q.id
        rcases List.mem_append.mp hq with h1a | h2a
        · have h0 := h5 q (hrestq q h1a)
          omega
        · have h0 := hnewpend q h2a
          omega
      have hi9 : ∀ r ∈ result ++ [node],
          pendInCount g ((result ++ [node]).map Node.id) r.id = 0 := by
        intro r hr
        rw [hres2]
        have hps := hpendstep r.id
        have h0 : pendInCount g (result.map Node.id) r.id = 0 := by
          rcases List.mem_append.mp hr with h1a | h2a
          · exact h9 r h1a
          · have he2 : r = node := by simpa using h2a
            rw [he2]
            exact h5 node hnodeq
        omega
      have hi6 : ∀ n ∈ g.nodes, n.id ∉ (result ++ [node]).map Node.id →
          n.id ∉ (rest ++ newNodes).map Node.id →
          1 ≤ pendInCount g ((result ++ [node]).map Node.id) n.id := by
        intro n hn hnr hnq
        rw [hres2] at hnr ⊢
        have hnres : n.id ∉ result.map Node.id :=
          fun hm => hnr (List.mem_append.mpr (Or.inl hm))
        have hnnode : ¬ n.id = node.id :=
          fun he => hnr (List.mem_append.mpr (Or.inr (by rw [he]; exact List.mem_cons_self _ _)))
        have hnrest : n.id ∉ rest.map Node.id :=
          fun hm => hnq (by rw [List.map_append]; exact List.mem_append.mpr (Or.inl hm))
        have hnnew : n.id ∉ newNodes.map Node.id :=
          fun hm => hnq (by rw [List.map_append]; exact List.mem_append.mpr (Or.inr hm))
        have hnqueue : n.id ∉ queue.map Node.id := by
          intro hm
          have hmem3 := hidperm.subset hm
          rcases List.mem_cons.mp hmem3 with he | hm2
          · exact hnnode he
          · exact hnrest hm2
        have hold : 1 ≤ pendInCount g (result.map Node.id) n.id := h6 n hn hnres hnqueue
        by_contra hlt
        have hps := hpendstep n.id
        have hc1 : 1 ≤ (g.get_successors node.id).count n.id := by omega
        have hmemS2 : n.id ∈ g.get_successors node.id := List.one_le_count_iff.mp hc1
        have hval : inDeg n.id =
            some (((g.get_successors node.id).count n.id : Nat) : Int) := by
          rw [h4 n hn]
          congr 1
          omega
        obtain ⟨nd, hndm, hndid⟩ := hcomp n.id hmemS2 hval
        exact hnnew (List.mem_map.mpr ⟨nd, hndm, hndid⟩)
      have hi7 : ∀ e ∈ g.edges, e.target ∈ (result ++ [node]).map Node.id →
          before ((result ++ [node]).map Node.id) e.source e.target := by
        intro e he ht
        rw [hres2] at ht ⊢
        rcases List.mem_append.mp ht with ht1 | ht2
        · exact before_append node.id (h7 e he ht1)
        · have hteq : e.target = node.id := by simpa using ht2
          have h0 : pendInCount g (result.map Node.id) node.id = 0 := h5 node hnodeq
          rw [pendInCount, List.length_eq_zero] at h0
          have hsrc : e.source ∈ result.map Node.id := by
            by_contra hsrcn
            have hpe : (e.target == node.id &&
                !((result.map Node.id).contains e.source)) = true := by
              rw [Bool.and_eq_true, beq_iff_eq]
              refine ⟨hteq, ?_⟩
              simp [hsrcn]
            have hmf : e ∈ g.edges.filter (fun e2 => e2.target == node.id &&
                !((result.map Node.id).contains e2.source)) :=
              List.mem_filter.mpr ⟨he, hpe⟩
            rw [h0] at hmf
            exact absurd hmf (List.not_mem_nil e)
          rw [hteq]
          exact before_append_last node.id hsrc
      have hifuel : g.nodes.length + 1 ≤ (result ++ [node]).length + fuel2 := by
        rw [List.length_append]
        simp only [List.length_singleton]
        omega
      obtain ⟨order, hordrun, hordmem, hordnodup, hordedge, tail, htail⟩ :=
        ih (rest ++ newNodes) (result ++ [node]) inDeg2 hi1 hi2 hi3 hi4 hi5 hi9 hi6 hi7 hifuel
      refine ⟨order, ?_, hordmem, hordnodup, hordedge, ?_⟩
      · rw [kahnLoop, hsq]
        simp only []
        rw [hrun]
        simp only []
        exact hordrun
      · refine ⟨node :: tail, ?_⟩
        rw [htail]
        simp

/-- C2, amended: for a graph with exactly one Start node, duplicate-free node
ids, edges whose endpoints all exist, and no directed cycle,
`get_execution_order` succeeds with a permutation of the node list in which
every edge's source is placed strictly before the edge's target. -/
theorem order_topological (g : NodeGraph)
    (hstart : (g.nodes.filter (fun n => n.type == "Start")).length = 1)
    (hnd : (g.nodes.map Node.id).Nodup)
    (hend : ∀ e ∈ g.edges, (g.get_node e.source).isSome ∧ (g.get_node e.target).isSome)
    (hacyc : ∀ x, ¬ Relation.TransGen (edgeRel g) x x) :
    ∃ order, get_execution_order g = Except.ok order ∧ order.Perm g.nodes ∧
      ∀ e ∈ g.edges, (order.map Node.id).indexOf e.source <
        (order.map Node.id).indexOf e.target := by
  rw [get_execution_order]
  rw [if_neg (by omega : ¬ (g.nodes.filter (fun n => n.type == "Start")).length ≠ 1)]
  have hpn : ∀ x, pendInCount g [] x = (g.edges.filter (fun e => e.target == x)).length := by
    intro x
    rw [pendInCount]
    congr 1
    apply List.filter_congr
    intro e _
    simp
  have hinit : ∀ n ∈ g.nodes, initInDeg g n.id =
      some ((pendInCount g (([] : List Node).map Node.id) n.id : Nat) : Int) := by
    intro n hn
    rw [initInDeg_spec, if_pos (List.any_eq_true.mpr ⟨n, hn, by simp⟩)]
    rw [List.map_nil, hpn n.id]
  have hq5 : ∀ q ∈ g.nodes.filter (fun n => initInDeg g n.id == some 0),
      pendInCount g (([] : List Node).map Node.id) q.id = 0 := by
    intro q hq
    rw [List.mem_filter] at hq
    obtain ⟨hqg, hq0⟩ := hq
    rw [beq_iff_eq] at hq0
    rw [initInDeg_spec, if_pos (List.any_eq_true.mpr ⟨q, hqg, by simp⟩)] at hq0
    rw [List.map_nil, hpn]
    injection hq0 with hq1
    exact_mod_cast hq1
  have hq6 : ∀ n ∈ g.nodes, n.id ∉ (([] : List Node).map Node.id) →
      n.id ∉ (g.nodes.filter (fun n2 => initInDeg g n2.id == some 0)).map Node.id →
      1 ≤ pendInCount g (([] : List Node).map Node.id) n.id := by
    intro n hn _ hnq
    by_contra hlt
    rw [List.map_nil] at hlt
    have h0 : pendInCount g [] n.id = 0 := by omega
    have hz : initInDeg g n.id = some 0 := by
      rw [initInDeg_spec, if_pos (List.any_eq_true.mpr ⟨n, hn, by simp⟩), ← hpn n.id, h0]
      simp
    apply hnq
    exact List.mem_map.mpr ⟨n, List.mem_filter.mpr ⟨hn, by simp [hz]⟩, rfl⟩
  have hq3 : ((([] : List Node) ++
      g.nodes.filter (fun n => initInDeg g n.id == some 0)).map Node.id).Nodup := by
    rw [List.nil_append]
    exact hnd.sublist ((List.filter_sublist g.nodes).map Node.id)
  obtain ⟨order, hrun, hmem, hnodup, hedge, -⟩ :=
    kahnLoop_ok g hnd hend hacyc (g.nodes.length + 1)
      (g.nodes.filter (fun n => initInDeg g n.id == some 0)) [] (initInDeg g)
      (by intro n hn; exact absurd hn (List.not_mem_nil n))
      (fun q hq => (List.mem_filter.mp hq).1)
      hq3 hinit hq5
      (by intro r hr; exact absurd hr (List.not_mem_nil r))
      hq6
      (by intro e he ht; rw [List.map_nil] at ht; exact absurd ht (List.not_mem_nil _))
      (by omega)
  refine ⟨order, hrun, ?_, ?_⟩
  · have hordnd : order.Nodup := List.Nodup.of_map Node.id hnodup
    have hgnd : g.nodes.Nodup := List.Nodup.of_map Node.id hnd
    exact (List.perm_ext_iff_of_nodup hordnd hgnd).mpr hmem
  · intro e he
    exact before_indexOf hnodup (hedge e he)

/-- C2 amended, witness: scenario A's graph (Start "s", End "e", one edge
s -> e) meets all four hypotheses, and the orderer indeed returns a
topologically sorted permutation of its nodes. -/
theorem order_topological_witness :
    ((graphA.nodes.filter (fun n => n.type == "Start")).length = 1) ∧
    ((graphA.nodes.map Node.id).Nodup) ∧
    (∀ e ∈ graphA.edges, (graphA.get_node e.source).isSome ∧
      (graphA.get_node e.target).isSome) ∧
    (∃ order, get_execution_order graphA = Except.ok order ∧ order.Perm graphA.nodes ∧
      ∀ e ∈ graphA.edges, (order.map Node.id).indexOf e.source <
        (order.map Node.id).indexOf e.target) :=
  ⟨by decide, by decide, by decide,
    order_topological graphA (by decide) (by decide) (by decide) graphA_acyclic⟩

/-- C4, amended: for a graph whose edges reference existing nodes, `convert`
fails (with a single typed failure and no step output) exactly when the graph
has no Start node, or some node id lies on a directed cycle, or some node's
type has no conversion handler. -/
theorem convert_error_iff (g : NodeGraph)
    (hend : ∀ e ∈ g.edges, (g.get_node e.source).isSome ∧ (g.get_node e.target).isSome) :
    (∃ msg, convert g = Except.error msg) ↔
      ((∀ nd ∈ g.nodes, ¬ (nd.type = "Start")) ∨
       (∃ x ∈ g.nodes, Relation.TransGen (edgeRel g) x.id x.id) ∨
       (∃ nd ∈ g.nodes, node_handler_keys.contains nd.type = false)) := by
  have hsome : (hasCyclesO g).isSome := by
    rw [hasCyclesO_eq]
    have hfs := findCycle_isSome g
    match hfc : findCycle g with
    | none => rw [hfc] at hfs; exact absurd hfs (by simp)
    | some r => simp [hfc]
  constructor
  · rintro ⟨msg, hmsg⟩
    rw [convert] at hmsg
    match hhc : hasCyclesO g with
    | none =>
      rw [hhc] at hsome
      exact absurd hsome (by simp)
    | some true =>
      rw [hasCyclesO_eq] at hhc
      match hfc : findCycle g with
      | none => rw [hfc] at hhc; exact absurd hhc (by simp)
      | some none => rw [hfc] at hhc; exact absurd hhc (by simp)
      | some (some c) =>
        have hchain := findCycle_sound g c hfc
        obtain ⟨x, ⟨e, he, hsx⟩, htg⟩ := closedChain_transGen g c hchain
        have hx := (hend e he).1
        rw [hsx] at hx
        obtain ⟨nd, hnd, hid⟩ := (get_node_isSome_iff g x).mp hx
        refine Or.inr (Or.inl ⟨nd, hnd, ?_⟩)
        rw [hid]
        exact htg
    | some false =>
      rw [hhc] at hmsg
      match hft : g.nodes.find? (fun n => ¬ (node_handler_keys.contains n.type)) with
      | some n =>
        have hmemn := List.mem_of_find?_eq_some hft
        have hp := List.find?_some hft
        refine Or.inr (Or.inr ⟨n, hmemn, ?_⟩)
        simpa using hp
      | none =>
        rw [hft] at hmsg
        match hst : g.nodes.find? (fun n => n.type == "Start") with
        | some s =>
          rw [hst] at hmsg
          exact absurd hmsg (by simp)
        | none =>
          refine Or.inl ?_
          intro nd hnd heq
          have := List.find?_eq_none.mp hst nd hnd
          simp [heq] at this
  · intro hcond
    match hhc : hasCyclesO g with
    | none =>
      rw [hhc] at hsome
      exact absurd hsome (by simp)
    | some true =>
      rw [convert, hhc]
      exact ⟨_, rfl⟩
    | some false =>
      have hnocyc : ∀ x ∈ g.nodes, ¬ Relation.TransGen (edgeRel g) x.id x.id := by
        rw [hasCyclesO_eq] at hhc
        match hfc : findCycle g with
        | none => rw [hfc] at hhc; exact absurd hhc (by simp)
        | some (some c) => rw [hfc] at hhc; exact absurd hhc (by simp)
        | some none => exact findCycle_none_acyclic g hfc
      rcases hcond with hnostart | hcycle | hunk
      · match hft : g.nodes.find? (fun n => ¬ (node_handler_keys.contains n.type)) with
        | some n =>
          rw [convert, hhc, hft]
          exact ⟨_, rfl⟩
        | none =>
          have hst : g.nodes.find? (fun n => n.type == "Start") = none := by
            rw [List.find?_eq_none]
            intro nd hnd
            simpa using hnostart nd hnd
          rw [convert, hhc, hft, hst]
          exact ⟨_, rfl⟩
      · obtain ⟨x, hx, htg⟩ := hcycle
        exact absurd htg (hnocyc x hx)
      · obtain ⟨nd, hnd, hcont⟩ := hunk
        have hfindsome : (g.nodes.find?
            (fun n => ¬ (node_handler_keys.contains n.type))).isSome :=
          List.find?_isSome.mpr ⟨nd, hnd, by simpa using hcont⟩
        match hft : g.nodes.find? (fun n => ¬ (node_handler_keys.contains n.type)) with
        | none =>
          rw [hft] at hfindsome
          exact absurd hfindsome (by simp)
        | some n =>
          rw [convert, hhc, hft]
          exact ⟨_, rfl⟩

/-- C4 amended, witness: the theorem instantiated at scenario C's cyclic graph,
whose edges all reference existing nodes; both sides of the equivalence hold. -/
theorem convert_error_iff_witness :
    (∀ e ∈ graphCyc.edges,
      (graphCyc.get_node e.source).isSome ∧ (graphCyc.get_node e.target).isSome) ∧
    ((∃ msg, convert graphCyc = Except.error msg) ↔
      ((∀ nd ∈ graphCyc.nodes, ¬ (nd.type = "Start")) ∨
       (∃ x ∈ graphCyc.nodes, Relation.TransGen (edgeRel graphCyc) x.id x.id) ∨
       (∃ nd ∈ graphCyc.nodes, node_handler_keys.contains nd.type = false))) :=
  ⟨by decide, convert_error_iff graphCyc (by decide)⟩

/-- Everything the reachability BFS marks is the seed, already marked, or an
edge target. -/
lemma bfsReachable_mem (g : NodeGraph) :
    ∀ (fuel : Nat) (queue reach : List String) (x : String),
      x ∈ bfsReachable g fuel queue reach →
      x ∈ reach ∨ x ∈ queue ∨ x ∈ g.edges.map (fun e => e.target) := by
  intro fuel
  induction fuel with
  | zero =>
    intro queue reach x hx
    cases queue with
    | nil => simp only [bfsReachable] at hx; exact Or.inl hx
    | cons id rest => simp only [bfsReachable] at hx; exact Or.inl hx
  | succ f ih =>
    intro queue reach x hx
    cases queue with
    | nil => simp only [bfsReachable] at hx; exact Or.inl hx
    | cons id rest =>
      rw [bfsReachable] at hx
      by_cases hid : id ∈ reach
      · rw [if_pos hid] at hx
        rcases ih rest reach x hx with h1 | h2 | h3
        · exact Or.inl h1
        · exact Or.inr (Or.inl (List.mem_cons_of_mem _ h2))
        · exact Or.inr (Or.inr h3)
      · rw [if_neg hid] at hx
        rcases ih (rest ++ g.get_successors id) (id :: reach) x hx with h1 | h2 | h3
        · rcases List.mem_cons.mp h1 with rfl | h1b
          · exact Or.inr (Or.inl (List.mem_cons_self _ _))
          · exact Or.inl h1b
        · rcases List.mem_append.mp h2 with h2a | h2b
          · exact Or.inr (Or.inl (List.mem_cons_of_mem _ h2a))
          · rw [mem_successors_iff] at h2b
            obtain ⟨e, he, _, ht⟩ := h2b
            exact Or.inr (Or.inr (List.mem_map.mpr ⟨e, he, ht⟩))
        · exact Or.inr (Or.inr h3)

/-- C7, amended: in a graph whose Start filter yields exactly the node `s`,
any node with no incoming edges and an id different from `s.id` receives an
"unreachable from Start" warning, and that condition is never reported as an
error. -/
theorem unreachable_warning (g : NodeGraph) (s n : Node)
    (hstart : g.nodes.filter (fun nd => nd.type == "Start") = [s])
    (hn : n ∈ g.nodes) (hnid : ¬ (n.id = s.id))
    (hinc : g.get_incoming_edges n.id = []) :
    (∃ w ∈ (validate g).warnings, w.message = "Node is unreachable from Start" ∧
      w.node_id = some n.id) ∧
    (∀ e ∈ (validate g).errors, e.message ≠ "Node is unreachable from Start") := by
  refine ⟨?_, validate_no_unreach_error g⟩
  have hreach : n.id ∉ bfsReachable g (g.edges.length + 1) [s.id] [] := by
    intro hmem
    rcases bfsReachable_mem g _ _ _ _ hmem with h1 | h2 | h3
    · simp at h1
    · simp only [List.mem_singleton] at h2
      exact hnid h2
    · obtain ⟨e, he, ht⟩ := List.mem_map.mp h3
      have hthis : e ∈ g.get_incoming_edges n.id := by
        rw [NodeGraph.get_incoming_edges, List.mem_filter]
        exact ⟨he, by simp [ht]⟩
      rw [hinc] at hthis
      exact absurd hthis (by simp)
  have hw : mkWarning "Node is unreachable from Start" (some n.id) none
      (some ("Node '" ++ n.id ++ "' (" ++
        (match g.get_node n.id with
         | some node => node.type
         | none => "unknown") ++ ") cannot be reached")) ∈ (validateReachability g).2 := by
    rw [validateReachability, hstart]
    simp only []
    refine List.mem_map.mpr ⟨n.id, ?_, rfl⟩
    rw [List.mem_filter]
    constructor
    · exact List.mem_dedup.mpr (List.mem_map.mpr ⟨n, hn, rfl⟩)
    · simpa using hreach
  exact ⟨_, mem_validate_of_reach g _ hw, rfl, rfl⟩

/-- C7 amended, witness: in scenario D's graph, the SetHotend node "t" has no
incoming edges and indeed draws the unreachable warning, never an error. -/
theorem unreachable_warning_witness :
    (graphD.nodes.filter (fun nd => nd.type == "Start") = [mkNode "s" "Start" []]) ∧
    (mkNode "t" "SetHotend"
      [("temperature", PValue.vInt 500), ("wait", PValue.vBool false)] ∈ graphD.nodes) ∧
    ((∃ w ∈ (validate graphD).warnings, w.message = "Node is unreachable from Start" ∧
      w.node_id = some (mkNode "t" "SetHotend"
        [("temperature", PValue.vInt 500), ("wait", PValue.vBool false)]).id) ∧
    (∀ e ∈ (validate graphD).errors, e.message ≠ "Node is unreachable from Start")) :=
  ⟨by decide, by decide,
    unreachable_warning graphD (mkNode "s" "Start" [])
      (mkNode "t" "SetHotend" [("temperature", PValue.vInt 500), ("wait", PValue.vBool false)])
      (by decide) (by decide) (by decide) (by decide)⟩

/-- C6: `is_compatible p q` is true exactly when a side is the wildcard kind
or the kinds agree, and the comparison is symmetric. -/
theorem port_compatibility_spec (p q : PortDefinition) :
    (p.is_compatible q = true ↔
      p.port_type = PortType.any ∨ q.port_type = PortType.any ∨
        p.port_type = q.port_type) ∧
    p.is_compatible q = q.is_compatible p := by
  rcases p with ⟨pi, pl, pt, pr, pdv⟩
  rcases q with ⟨qi, ql, qt, qr, qdv⟩
  cases pt <;> cases qt <;> simp [PortDefinition.is_compatible]

/-- C8: scenario A (Start "s" → End "e") validates cleanly with no errors and
no warnings, and converts to exactly one step, the End finalization comment;
the Start node contributes no steps. -/
theorem scenario_a_valid_one_step :
    validate graphA = ⟨true, [], []⟩ ∧
    convert graphA = Except.ok [Step.gcodeComment (PValue.vStr "End of print")] ∧
    (∀ n ∈ graphA.nodes, n.type = "Start" → convertNode n = []) := by decide

/-- C10: on a graph with exactly one Start, no directed cycle, and an edge
whose target id names no node, `get_execution_order` fails with the unguarded
in-degree lookup (`KeyError`), not the documented structural `ValueError`. -/
theorem dangling_target_keyerror :
    (graphKey.nodes.filter (fun n => n.type == "Start")).length = 1 ∧
    (∀ x, ¬ Relation.TransGen (edgeRel graphKey) x x) ∧
    (∃ e ∈ graphKey.edges, graphKey.get_node e.target = none) ∧
    get_execution_order graphKey = Except.error (ExecError.keyError "ghost") :=
  ⟨by decide, graphKey_acyclic, by decide, by decide⟩

/-- C2, counterexample: `graphKey` has exactly one Start node and no directed
cycle, yet `get_execution_order` does not return any ordering at all (it hits
the dangling-target lookup), refuting the claim as stated. -/
theorem order_claim_cex :
    (graphKey.nodes.filter (fun n => n.type == "Start")).length = 1 ∧
    (∀ x, ¬ Relation.TransGen (edgeRel graphKey) x x) ∧
    ¬ ∃ res, get_execution_order graphKey = Except.ok res := by
  refine ⟨by decide, graphKey_acyclic, ?_⟩
  rintro ⟨res, hres⟩
  have hkey : get_execution_order graphKey = Except.error (ExecError.keyError "ghost") := by
    decide
  rw [hkey] at hres
  exact Except.noConfusion hres

/-- C4, counterexample: `graphGhostCycle` contains a directed cycle in its
edge successor relation (g1 → g2 → g1), yet `convert` succeeds, so "fails
exactly when ... the graph contains a directed cycle" is false as stated. -/
theorem convert_failure_claim_cex :
    (∃ x, Relation.TransGen (edgeRel graphGhostCycle) x x) ∧
    convert graphGhostCycle = Except.ok [] := by
  constructor
  · refine ⟨"g1", Relation.TransGen.head (b := "g2") ?_ (Relation.TransGen.single ?_)⟩
    · exact ⟨⟨"c1", "g1", "out", "g2", "in"⟩, by decide, rfl, rfl⟩
    · exact ⟨⟨"c2", "g2", "out", "g1", "in"⟩, by decide, rfl, rfl⟩
  · decide

/-- C3, counterexample: `graphNodeGhostCycle` has a directed cycle through the
node id "n", and `validate` flags it invalid, but no error's detail can render
an ordered chain of at least two NODE ids connected by successor edges that
closes on itself, because no such chain exists: every edge of the graph
touches the dangling id "g". -/
theorem cycle_detail_claim_cex :
    ("n" ∈ graphNodeGhostCycle.nodes.map (fun nd => nd.id) ∧
      Relation.TransGen (edgeRel graphNodeGhostCycle) "n" "n") ∧
    (validate graphNodeGhostCycle).is_valid = false ∧
    ¬ ∃ err ∈ (validate graphNodeGhostCycle).errors, ∃ c : List String,
        2 ≤ c.length ∧ List.Chain' (edgeRel graphNodeGhostCycle) c ∧
        c.head? = c.getLast? ∧
        (∀ x ∈ c, x ∈ graphNodeGhostCycle.nodes.map (fun nd => nd.id)) ∧
        err.details = some ("Cycle detected: " ++ String.intercalate (" -> ") c) := by
  refine ⟨⟨by decide, ?_⟩, by decide, ?_⟩
  · refine Relation.TransGen.head (b := "g") ?_ (Relation.TransGen.single ?_)
    · exact ⟨⟨"e1", "n", "out", "g", "in"⟩, by decide, rfl, rfl⟩
    · exact ⟨⟨"e2", "g", "out", "n", "in"⟩, by decide, rfl, rfl⟩
  · rintro ⟨err, -, c, hlen, hchain, -, hmem, -⟩
    match c, hlen with
    | a :: b :: rest, _ =>
      have hab : edgeRel graphNodeGhostCycle a b := (List.chain'_cons.mp hchain).1
      have hb : b ∈ graphNodeGhostCycle.nodes.map (fun nd => nd.id) :=
        hmem b (by simp)
      have ha : a ∈ graphNodeGhostCycle.nodes.map (fun nd => nd.id) :=
        hmem a (by simp)
      rcases graphNodeGhostCycle_edge a b hab with ⟨rfl, rfl⟩ | ⟨rfl, rfl⟩
      · revert hb
        decide
      · revert ha
        decide

/-- C7, counterexample: with two Start nodes, `validate` skips the
reachability check entirely, so an edge-free non-Start node gets no
"unreachable from Start" warning, refuting the for-every-graph claim. -/
theorem unreachable_claim_cex :
    ∃ n ∈ graphTwoStarts.nodes, ¬ (n.type = "Start") ∧
      graphTwoStarts.get_incoming_edges n.id = [] ∧
      ¬ ∃ w ∈ (validate graphTwoStarts).warnings,
          w.message = "Node is unreachable from Start" ∧ w.node_id = some n.id := by
  decide

/-- C5, counterexample: the SetHotend temperature parameter has declared max
300, and the numeric value 500.0 exceeds it, but because the parameter kind is
integer the validator rejects the float with "must be an integer" — the
message does not contain "must be <= 300" as the claim requires. -/
theorem param_max_claim_cex :
    ∃ pd ∈ SET_HOTEND_NODE.parameters,
      pd.max_value = some 300 ∧
      (PValue.vFloat 500).isNumberInst = true ∧
      ((300 : Rat) < (PValue.vFloat 500).toRat) ∧
      (pd.validate (PValue.vFloat 500)).1 = false ∧
      (pd.validate (PValue.vFloat 500)).2 = some "Temperature must be an integer" ∧
      ¬ strContains "Temperature must be an integer" ("must be <= 300") := by
  decide

/-- C5, amended: for a numeric or integer parameter with declared maximum m,
a value of the parameter's kind that is not below the declared minimum and
exceeds m is rejected with a message containing "must be <= m"; and in
scenario D, validating the graph with SetHotend temperature 500 yields
is_valid false with an error on node "t" whose message contains
"must be <= 300". -/
theorem param_max_message :
    (∀ (pd : ParameterDefinition) (v : PValue) (m : Int),
      (pd.param_type = ParameterType.number → v.isNumberInst = true) →
      (pd.param_type = ParameterType.integer → v.isIntInst = true) →
      (pd.param_type = ParameterType.number ∨ pd.param_type = ParameterType.integer) →
      pd.max_value = some m →
      ((m : Rat) < v.toRat) →
      (∀ mn, pd.min_value = some mn → ¬ (v.toRat < (mn : Rat))) →
      pd.validate v = (false, some (pd.label ++ " must be <= " ++ toString m)) ∧
      ∃ msg, (pd.validate v).2 = some msg ∧
        strContains msg ("must be <= " ++ toString m)) ∧
    ((validate graphD).is_valid = false ∧
      ∃ err ∈ (validate graphD).errors, err.node_id = some "t" ∧
        strContains err.message ("must be <= 300")) := by
  constructor
  · intro pd v m hnum hint hkind hmax hgt hmin
    have hvne : ¬ (v = PValue.vNone) := by
      rcases hkind with hk | hk
      · have := hnum hk
        intro hv
        rw [hv] at this
        exact absurd this (by decide)
      · have := hint hk
        intro hv
        rw [hv] at this
        exact absurd this (by decide)
    have hbounds : checkBounds pd.label v.toRat pd.min_value pd.max_value =
        (false, some (pd.label ++ " must be <= " ++ toString m)) := by
      cases hmn : pd.min_value with
      | none => simp [checkBounds, hmn, hmax, hgt]
      | some mn =>
        have := hmin mn hmn
        simp [checkBounds, hmn, hmax, hgt, this]
    have hmain : pd.validate v = (false, some (pd.label ++ " must be <= " ++ toString m)) := by
      rcases hkind with hk | hk
      · have hinst := hnum hk
        rw [ParameterDefinition.validate, if_neg hvne, if_pos hk]
        simp [hinst, hbounds]
      · have hinst := hint hk
        have hne : ¬ (pd.param_type = ParameterType.number) := by
          rw [hk]
          decide
        rw [ParameterDefinition.validate, if_neg hvne, if_neg hne, if_pos hk]
        simp [hinst, hbounds]
    refine ⟨hmain, pd.label ++ " must be <= " ++ toString m, by rw [hmain], ?_⟩
    have hsplit : pd.label ++ " must be <= " ++ toString m =
        (pd.label ++ " ") ++ ("must be <= " ++ toString m) := by
      have hsp : (" must be <= " : String) = " " ++ "must be <= " := by decide
      rw [String.append_assoc, String.append_assoc, hsp, String.append_assoc]
    rw [hsplit]
    exact strContains_append_left _ _
  · exact ⟨by decide, by decide⟩

/-- C5 witness: the amended statement applied to the SetHotend temperature
parameter with the concrete out-of-range integer 500. -/
theorem param_max_message_witness :
    (hotendTempParam.param_type = ParameterType.number ∨
      hotendTempParam.param_type = ParameterType.integer) ∧
    hotendTempParam.max_value = some 300 ∧
    (PValue.vInt 500).isIntInst = true ∧
    ((300 : Int) : Rat) < (PValue.vInt 500).toRat ∧
    hotendTempParam.validate (PValue.vInt 500) =
      (false, some (hotendTempParam.label ++ " must be <= " ++ toString (300 : Int))) := by
  have hgt : ((300 : Int) : Rat) < (PValue.vInt 500).toRat := by
    show ((300 : Int) : Rat) < ((500 : Int) : Rat)
    norm_num
  refine ⟨Or.inr rfl, rfl, rfl, hgt, ?_⟩
  exact (param_max_message.1 hotendTempParam (PValue.vInt 500) 300
    (fun h => absurd h (by decide)) (fun _ => rfl) (Or.inr rfl) rfl hgt
    (fun mn hmn => by
      have : mn = 0 := by
        have := Option.some.inj hmn
        omega
      rw [this]
      show ¬ ((PValue.vInt 500).toRat < ((0 : Int) : Rat))
      norm_num
      show ((0 : Int) : Rat) ≤ ((500 : Int) : Rat)
      norm_num)).1

end NodeSlicer
